import Mathlib

set_option linter.unusedSectionVars false

/-!
Verification of the numeric linear-algebra core of an interactive
robotics teaching tool.  The embedded code consists of three modules:

* a matrix module (`MatrixLib`): dense rectangular matrices represented as
  row-major nested lists, with multiplication, determinant (closed forms for
  sizes 1–3, recursive Laplace expansion otherwise) and inverse (closed-form
  adjugate for 2×2/3×3, Gauss–Jordan elimination with partial pivoting
  otherwise);
* a vector module (`VectorLib`): 2D/3D vectors with componentwise algebra;
* a transform module (`TransformsLib`): rotation matrices, Euler-angle
  conversions and rigid-body homogeneous transforms.

Arithmetic is embedded exactly: the source's IEEE-754 doubles become elements
of a linear ordered field (`ℚ` for executable witnesses, `ℝ` for the
trigonometric parts).  The source's `throw new Error(...)` failure paths
become `Except MatrixLib.MatError` results, with the data interpolated into
the thrown message carried in the error constructors.
-/

namespace MatrixLib

/-- `export type Matrix = number[][]` — row-major nested lists. -/
abbrev Mat (α : Type) := List (List α)

variable {α : Type} [LinearOrderedField α]

/-- Reading `matrix[i][j]`; out-of-range access is given the junk value `0`
(the embedded code only reads in range on well-formed input). -/
def entry (m : Mat α) (i j : Nat) : α := (m.getD i []).getD j 0

/-- `dimensions(matrix)`: `[matrix.length, matrix[0]?.length || 0]`. -/
def dimensions (m : Mat α) : Nat × Nat := (m.length, (m.headD []).length)

/-- The rectangular-shape invariant of the data model: `r` rows, each of
length `c`. -/
def wellFormed (m : Mat α) (r c : Nat) : Prop :=
  m.length = r ∧ ∀ row ∈ m, row.length = c

instance (m : Mat α) (r c : Nat) : Decidable (wellFormed m r c) := by
  unfold wellFormed; infer_instance

/-- Row-major matrix builder: the functional counterpart of the source's
allocate-then-fill loops (`zeros` followed by index assignments). -/
def mkMat (r c : Nat) (f : Nat → Nat → α) : Mat α :=
  (List.range r).map fun i => (List.range c).map fun j => f i j

/-- `zeros(rows, cols)`. -/
def zeros (r c : Nat) : Mat α := List.replicate r (List.replicate c 0)

/-- `identity(size)`: zero matrix with the diagonal set to 1. -/
def identity (size : Nat) : Mat α :=
  mkMat size size fun i j => if i = j then 1 else 0

/-- The error kinds thrown by the matrix module.  Each constructor carries
exactly the data the source interpolates into the thrown `Error` message:
`dimensionMismatch` names both operand shapes, `notSquare` names the shape of
the offending matrix, `singular` carries no data (the source message is the
fixed string `'Matrix is singular and cannot be inverted'`). -/
inductive MatError : Type where
  | dimensionMismatch : Nat × Nat → Nat × Nat → MatError
  | notSquare : Nat × Nat → MatError
  | singular : MatError
deriving DecidableEq

deriving instance DecidableEq for Except

/-- `multiply(a, b)`: checks `aCols !== bRows`, then the standard triple
loop `result[i][j] = Σ_k a[i][k] * b[k][j]`. -/
def multiply (a b : Mat α) : Except MatError (Mat α) :=
  let aRows := (dimensions a).1
  let aCols := (dimensions a).2
  let bRows := (dimensions b).1
  let bCols := (dimensions b).2
  if aCols ≠ bRows then
    .error (.dimensionMismatch (aRows, aCols) (bRows, bCols))
  else
    .ok (mkMat aRows bCols fun i j =>
      ((List.range aCols).map fun k => entry a i k * entry b k j).sum)

/-- `minor(matrix, row, col)`: drop one row index and one column index. -/
def minor (m : Mat α) (row col : Nat) : Mat α :=
  (m.eraseIdx row).map fun r => r.eraseIdx col

/-- The body of `determinant`, with the recursion depth made structural:
the `fuel` argument is always the current row count, so the out-of-fuel
fallback (an arbitrary `0` mirroring the loop accumulator) is unreachable —
each minor has exactly one row fewer than its parent.  The two equations
share the source's guard chain; only the final `else` (the recursive
cofactor loop) consumes fuel. -/
def detFuel : Nat → Mat α → Except MatError α
  | 0, m =>
    if m.length ≠ (m.headD []).length then
      .error (.notSquare (m.length, (m.headD []).length))
    else if m.length = 0 then .ok 0
    else if m.length = 1 then .ok (entry m 0 0)
    else if m.length = 2 then
      .ok (entry m 0 0 * entry m 1 1 - entry m 0 1 * entry m 1 0)
    else if m.length = 3 then
      .ok (entry m 0 0 * (entry m 1 1 * entry m 2 2 - entry m 1 2 * entry m 2 1) -
           entry m 0 1 * (entry m 1 0 * entry m 2 2 - entry m 1 2 * entry m 2 0) +
           entry m 0 2 * (entry m 1 0 * entry m 2 1 - entry m 1 1 * entry m 2 0))
    else .ok 0
  | fuel' + 1, m =>
    if m.length ≠ (m.headD []).length then
      .error (.notSquare (m.length, (m.headD []).length))
    else if m.length = 0 then .ok 0
    else if m.length = 1 then .ok (entry m 0 0)
    else if m.length = 2 then
      .ok (entry m 0 0 * entry m 1 1 - entry m 0 1 * entry m 1 0)
    else if m.length = 3 then
      .ok (entry m 0 0 * (entry m 1 1 * entry m 2 2 - entry m 1 2 * entry m 2 1) -
           entry m 0 1 * (entry m 1 0 * entry m 2 2 - entry m 1 2 * entry m 2 0) +
           entry m 0 2 * (entry m 1 0 * entry m 2 1 - entry m 1 1 * entry m 2 0))
    else
      (List.range m.length).foldlM
        (fun det j => (detFuel fuel' (minor m 0 j)).map
          fun d => det + (-1 : α) ^ j * entry m 0 j * d) 0

/-- `determinant(matrix)`: `NotSquare` check, closed forms for sizes 1–3,
recursive Laplace cofactor expansion along row 0 otherwise. -/
def determinant (m : Mat α) : Except MatError α := detFuel m.length m

/-- The fixed singularity tolerance `1e-10` of `inverse`. -/
def singularTol : α := 1 / 10 ^ 10

/-- Pivot search of the elimination loop: among rows `k = i+1 … size-1`,
move to `k` whenever `|augmented[k][i]| > |augmented[maxRow][i]|`, starting
from `maxRow = i`. -/
def gjPivotRow (aug : Mat α) (i size : Nat) : Nat :=
  (List.range' (i + 1) (size - (i + 1))).foldl
    (fun maxRow k => if |entry aug k i| > |entry aug maxRow i| then k else maxRow) i

/-- `[augmented[i], augmented[maxRow]] = [augmented[maxRow], augmented[i]]`:
swap two rows (both old rows are read before either write). -/
def gjSwap (aug : Mat α) (i j : Nat) : Mat α :=
  (aug.set i (aug.getD j [])).set j (aug.getD i [])

/-- `for (j …) augmented[i][j] /= pivot`: scale row `i` by `1/pivot`. -/
def gjScaleRow (aug : Mat α) (i : Nat) (pivot : α) : Mat α :=
  aug.set i ((aug.getD i []).map fun x => x / pivot)

/-- The column-clearing loop: for every `k ≠ i`, subtract
`factor * augmented[i]` from `augmented[k]`, where `factor = augmented[k][i]`
is read before the row is rewritten. -/
def gjEliminate (aug : Mat α) (i size : Nat) : Mat α :=
  (List.range size).foldl
    (fun A k =>
      if k = i then A
      else
        let factor := entry A k i
        A.set k (List.zipWith (fun x y => x - factor * y) (A.getD k []) (A.getD i [])))
    aug

/-- One iteration of the elimination loop: partial pivoting, row swap, the
`|pivot| < 1e-10 → Singular` re-check, pivot-row scaling, column clearing. -/
def gjStep (size : Nat) (aug : Mat α) (i : Nat) : Except MatError (Mat α) :=
  let maxRow := gjPivotRow aug i size
  let swapped := gjSwap aug i maxRow
  let pivot := entry swapped i i
  if |pivot| < singularTol then .error .singular
  else .ok (gjEliminate (gjScaleRow swapped i pivot) i size)

/-- The full elimination loop `for (i = 0; i < size; i++) …`. -/
def gjLoop (size : Nat) (aug : Mat α) : Except MatError (Mat α) :=
  (List.range size).foldlM (gjStep size) aug

/-- `matrix.map((row, i) => [...row, ...identity(size)[i]])`: augment with
the identity (row-by-row append; `size` is always `matrix.length`). -/
def gjAugment (m : Mat α) (size : Nat) : Mat α :=
  List.zipWith (· ++ ·) m (identity size)

/-- `inverse(matrix)`: `NotSquare` check, determinant and the
`|det| < 1e-10 → Singular` check, closed-form adjugate for 2×2 and 3×3,
Gauss–Jordan elimination on `[matrix | identity]` otherwise, extracting
the right half `row.slice(size)` at the end. -/
def inverse (m : Mat α) : Except MatError (Mat α) :=
  let size := m.length
  if m.length ≠ (m.headD []).length then
    .error (.notSquare (m.length, (m.headD []).length))
  else
    match determinant m with
    | .error e => .error e
    | .ok det =>
      if |det| < singularTol then .error .singular
      else if size = 2 then
        .ok [[entry m 1 1 / det, -entry m 0 1 / det],
             [-entry m 1 0 / det, entry m 0 0 / det]]
      else if size = 3 then
        -- [[a, b, c], [d, e, f], [g, h, i]] destructuring of the source
        let a := entry m 0 0; let b := entry m 0 1; let c := entry m 0 2
        let d := entry m 1 0; let e := entry m 1 1; let f := entry m 1 2
        let g := entry m 2 0; let h := entry m 2 1; let i := entry m 2 2
        .ok [[(e * i - f * h) / det, (c * h - b * i) / det, (b * f - c * e) / det],
             [(f * g - d * i) / det, (a * i - c * g) / det, (c * d - a * f) / det],
             [(d * h - e * g) / det, (b * g - a * h) / det, (a * e - b * d) / det]]
      else
        (gjLoop size (gjAugment m size)).map fun aug => aug.map fun row => row.drop size

/-- `true` exactly when the Gauss–Jordan elimination loop of `inverse` fails
one of its per-pivot `1e-10` checks on `m` (partial pivoting included). -/
def gjFails (m : Mat α) : Bool :=
  match gjLoop m.length (gjAugment m m.length) with
  | .error _ => true
  | .ok _ => false


/-- Reading a list matrix as a Mathlib matrix of the given shape. -/
def toMatrix (m : Mat α) (r c : Nat) : Matrix (Fin r) (Fin c) α :=
  Matrix.of fun i j => entry m i j

/-- The elimination loop's step function. -/
def gjElimStep (i : Nat) (A : Mat α) (k : Nat) : Mat α :=
  if k = i then A
  else
    let factor := entry A k i
    A.set k (List.zipWith (fun x y => x - factor * y) (A.getD k []) (A.getD i []))

/-- The loop invariant of the Gauss–Jordan elimination in `inverse`, after
the first `i` columns have been processed: the augmented matrix has `n` rows
of length `2n`; every left-half row is the right-half row combined with the
original matrix `m` (each row operation rewrites both halves identically);
and the first `i` left-half columns are already identity columns. -/
def GJInv (m : Mat α) (n i : Nat) (aug : Mat α) : Prop :=
  aug.length = n ∧
  (∀ row ∈ aug, row.length = n + n) ∧
  (∀ k, k < n → ∀ j, j < n →
    entry aug k j = ∑ t ∈ Finset.range n, entry aug k (n + t) * entry m t j) ∧
  (∀ j, j < i → ∀ k, k < n → entry aug k j = if k = j then 1 else 0)

end MatrixLib

namespace VectorLib

/-- `Vector2 { x, y }` / `Vector3 { x, y, z }`; `type Vector = Vector2 | Vector3`. -/
inductive Vector (α : Type) : Type where
  | v2 (x y : α) : Vector α
  | v3 (x y z : α) : Vector α
deriving DecidableEq

variable {α : Type} [LinearOrderedField α]

/-- `isVector3(v)`: `'z' in v`. -/
def isVector3 : Vector α → Bool
  | .v3 _ _ _ => true
  | .v2 _ _ => false

/-- Component read `v.x`. -/
def x : Vector α → α
  | .v2 a _ => a
  | .v3 a _ _ => a

/-- Component read `v.y`. -/
def y : Vector α → α
  | .v2 _ b => b
  | .v3 _ b _ => b

/-- Component read `v.z`; the source only reads `z` from values it has
checked with `isVector3`, so the `Vector2` case is junk (`undefined` in JS). -/
def z : Vector α → α
  | .v2 _ _ => 0
  | .v3 _ _ c => c

/-- `add(a, b)`: all three components when both are 3D, otherwise only
`x` and `y`. -/
def add (a b : Vector α) : Vector α :=
  match a, b with
  | .v3 x1 y1 z1, .v3 x2 y2 z2 => .v3 (x1 + x2) (y1 + y2) (z1 + z2)
  | _, _ => .v2 (x a + x b) (y a + y b)

/-- `subtract(a, b)`: all three components when both are 3D, otherwise only
`x` and `y`. -/
def subtract (a b : Vector α) : Vector α :=
  match a, b with
  | .v3 x1 y1 z1, .v3 x2 y2 z2 => .v3 (x1 - x2) (y1 - y2) (z1 - z2)
  | _, _ => .v2 (x a - x b) (y a - y b)

/-- `scale(v, s)`. -/
def scale (v : Vector α) (s : α) : Vector α :=
  match v with
  | .v3 a b c => .v3 (a * s) (b * s) (c * s)
  | .v2 a b => .v2 (a * s) (b * s)

/-- `equals(a, b, epsilon = 1e-10)`: strict `Math.abs(…) < epsilon` bounds
on matching components; `false` when the dimensions differ.  The source's
default argument `epsilon = 1e-10` is passed explicitly here. -/
def equals (a b : Vector α) (epsilon : α) : Bool :=
  match a, b with
  | .v3 _ _ _, .v3 _ _ _ =>
    decide (|x a - x b| < epsilon ∧ |y a - y b| < epsilon ∧ |z a - z b| < epsilon)
  | .v2 _ _, .v2 _ _ =>
    decide (|x a - x b| < epsilon ∧ |y a - y b| < epsilon)
  | _, _ => false

/-- `magnitude(v)`: `Math.sqrt` of the sum of squares. -/
noncomputable def magnitude (v : Vector ℝ) : ℝ :=
  match v with
  | .v3 a b c => Real.sqrt (a * a + b * b + c * c)
  | .v2 a b => Real.sqrt (a * a + b * b)

/-- `normalize(v)`: the zero vector of matching dimension when
`magnitude(v) === 0`, otherwise `scale(v, 1 / magnitude(v))`. -/
noncomputable def normalize (v : Vector ℝ) : Vector ℝ :=
  if magnitude v = 0 then (if isVector3 v then .v3 0 0 0 else .v2 0 0)
  else scale v (1 / magnitude v)


end VectorLib

namespace TransformsLib

open MatrixLib

/-- Model of the JS built-in `Math.atan2(y, x)`: the argument of the point
`(x, y)`, in `(-π, π]`, with `atan2(0, 0) = 0`. -/
noncomputable def atan2 (yc xc : ℝ) : ℝ := Complex.arg ⟨xc, yc⟩

/-- `rotationMatrixX(theta)`. -/
noncomputable def rotationMatrixX (theta : ℝ) : Mat ℝ :=
  [[1, 0, 0],
   [0, Real.cos theta, -Real.sin theta],
   [0, Real.sin theta, Real.cos theta]]

/-- `rotationMatrixY(theta)`. -/
noncomputable def rotationMatrixY (theta : ℝ) : Mat ℝ :=
  [[Real.cos theta, 0, Real.sin theta],
   [0, 1, 0],
   [-Real.sin theta, 0, Real.cos theta]]

/-- `rotationMatrixZ(theta)`. -/
noncomputable def rotationMatrixZ (theta : ℝ) : Mat ℝ :=
  [[Real.cos theta, -Real.sin theta, 0],
   [Real.sin theta, Real.cos theta, 0],
   [0, 0, 1]]

/-- `rotationMatrixFromEuler(roll, pitch, yaw)`:
`multiply(multiply(Rz, Ry), Rx)` (intrinsic ZYX convention); the
`multiply` failure paths are inherited, though they cannot fire on these
fixed 3×3 shapes. -/
noncomputable def rotationMatrixFromEuler (roll pitch yaw : ℝ) :
    Except MatError (Mat ℝ) :=
  match multiply (rotationMatrixZ yaw) (rotationMatrixY pitch) with
  | .error e => .error e
  | .ok zy => multiply zy (rotationMatrixX roll)

/-- `eulerFromRotationMatrix(R)`: `sy = sqrt(R[0][0]² + R[1][0]²)`; the
non-degenerate branch when `sy ≥ 1e-6`, the gimbal-lock branch (with
`yaw = 0`) when `sy < 1e-6`.  Returns `(roll, pitch, yaw)`. -/
noncomputable def eulerFromRotationMatrix (R : Mat ℝ) : ℝ × ℝ × ℝ :=
  let sy := Real.sqrt (entry R 0 0 * entry R 0 0 + entry R 1 0 * entry R 1 0)
  if sy < 1 / 10 ^ 6 then
    (atan2 (-entry R 1 2) (entry R 1 1), atan2 (-entry R 2 0) sy, 0)
  else
    (atan2 (entry R 2 1) (entry R 2 2), atan2 (-entry R 2 0) sy,
     atan2 (entry R 1 0) (entry R 0 0))

/-- `homogeneousTransform2D(theta, tx, ty)`. -/
noncomputable def homogeneousTransform2D (theta tx ty : ℝ) : Mat ℝ :=
  [[Real.cos theta, -Real.sin theta, tx],
   [Real.sin theta, Real.cos theta, ty],
   [0, 0, 1]]

section Generic

variable {α : Type} [LinearOrderedField α]

/-- `homogeneousTransform3D(R, t)`: `[R | t]` over a fixed `[0,0,0,1]` row. -/
def homogeneousTransform3D (R : Mat α) (t : α × α × α) : Mat α :=
  [R.getD 0 [] ++ [t.1],
   R.getD 1 [] ++ [t.2.1],
   R.getD 2 [] ++ [t.2.2],
   [0, 0, 0, 1]]

/-- `extractRotation(T)`: the top-left 3×3 block. -/
def extractRotation (T : Mat α) : Mat α :=
  [[entry T 0 0, entry T 0 1, entry T 0 2],
   [entry T 1 0, entry T 1 1, entry T 1 2],
   [entry T 2 0, entry T 2 1, entry T 2 2]]

/-- `extractTranslation(T)`: the top three entries of the last column. -/
def extractTranslation (T : Mat α) : α × α × α :=
  (entry T 0 3, entry T 1 3, entry T 2 3)

/-- `inverseTransform2D(T)`: the SE(2) closed form
`[Rᵗ | −Rᵗ·t; 0 | 1]` read off from `cos = T[0][0]`, `sin = T[1][0]`,
`tx = T[0][2]`, `ty = T[1][2]`. -/
def inverseTransform2D (T : Mat α) : Mat α :=
  let c := entry T 0 0
  let s := entry T 1 0
  let tx := entry T 0 2
  let ty := entry T 1 2
  [[c, s, -(c * tx + s * ty)],
   [-s, c, -(-s * tx + c * ty)],
   [0, 0, 1]]

/-- `inverseTransform3D(T)`: the SE(3) closed form — transpose the extracted
rotation block, negate its product with the extracted translation, rebuild
with `homogeneousTransform3D`. -/
def inverseTransform3D (T : Mat α) : Mat α :=
  let R := extractRotation T
  let t := extractTranslation T
  let RT : Mat α :=
    [[entry R 0 0, entry R 1 0, entry R 2 0],
     [entry R 0 1, entry R 1 1, entry R 2 1],
     [entry R 0 2, entry R 1 2, entry R 2 2]]
  let newT : α × α × α :=
    (-(entry RT 0 0 * t.1 + entry RT 0 1 * t.2.1 + entry RT 0 2 * t.2.2),
     -(entry RT 1 0 * t.1 + entry RT 1 1 * t.2.1 + entry RT 1 2 * t.2.2),
     -(entry RT 2 0 * t.1 + entry RT 2 1 * t.2.1 + entry RT 2 2 * t.2.2))
  homogeneousTransform3D RT newT

end Generic

/-- The concrete pitch used by the round-trip counterexample: close enough
to `π/2` that `cos pitch = 1e-7` falls below the decoder's `1e-6` branch
tolerance, yet still strictly inside `(-π/2, π/2)`. -/
noncomputable def badPitch : ℝ := Real.arccos (1 / 10 ^ 7)

end TransformsLib

/-! ## Theorems -/

namespace MatrixLib

variable {α : Type} [LinearOrderedField α]
/-! ### Basic lemmas about the list-matrix representation -/

theorem getD_lt {β : Type} {l : List β} {j : Nat} (d : β) (h : j < l.length) :
    l.getD j d = l[j] := by
  simp [List.getD_eq_getElem?_getD, List.getElem?_eq_getElem h]

theorem getD_ge {β : Type} {l : List β} {j : Nat} (d : β) (h : l.length ≤ j) :
    l.getD j d = d := by
  simp [List.getD_eq_getElem?_getD, List.getElem?_eq_none h]

theorem entry_eq_getElem {m : Mat α} {i j : Nat} (hi : i < m.length)
    (hj : j < m[i].length) : entry m i j = m[i][j] := by
  rw [entry, getD_lt _ hi, getD_lt _ hj]

theorem length_mkMat (r c : Nat) (f : Nat → Nat → α) : (mkMat r c f).length = r := by
  simp [mkMat]

theorem wellFormed_mkMat (r c : Nat) (f : Nat → Nat → α) :
    wellFormed (mkMat r c f) r c := by
  refine ⟨by simp [mkMat], ?_⟩
  intro row hrow
  simp only [mkMat, List.mem_map] at hrow
  obtain ⟨i, _, rfl⟩ := hrow
  simp

theorem entry_mkMat {r c i j : Nat} (f : Nat → Nat → α) (hi : i < r) (hj : j < c) :
    entry (mkMat r c f) i j = f i j := by
  simp [entry, mkMat, List.getD_eq_getElem?_getD, List.getElem?_map,
    List.getElem?_range hi, List.getElem?_range hj]

theorem rowLength_of_wf {m : Mat α} {r c i : Nat} (h : wellFormed m r c)
    (hi : i < r) : (m.getD i []).length = c := by
  have hi' : i < m.length := by rw [h.1]; exact hi
  rw [getD_lt _ hi']
  exact h.2 _ (List.getElem_mem hi')

theorem dimensions_of_wf {m : Mat α} {r c : Nat} (h : wellFormed m r c)
    (hr : 0 < r) : dimensions m = (r, c) := by
  obtain ⟨h1, h2⟩ := h
  cases m with
  | nil => simp at h1; omega
  | cons row rest =>
    simp only [dimensions, List.headD_cons, h1]
    have := h2 row (by simp)
    simp [this]

theorem wellFormed_identity (n : Nat) : wellFormed (identity n : Mat α) n n :=
  wellFormed_mkMat n n _

theorem entry_identity {n i j : Nat} (hi : i < n) (hj : j < n) :
    entry (identity n : Mat α) i j = if i = j then 1 else 0 :=
  entry_mkMat _ hi hj

/-- Two equally-shaped well-formed matrices with equal entries are equal. -/
theorem mat_ext {p q : Mat α} {r c : Nat} (hp : wellFormed p r c)
    (hq : wellFormed q r c) (h : ∀ i < r, ∀ j < c, entry p i j = entry q i j) :
    p = q := by
  apply List.ext_getElem (by rw [hp.1, hq.1])
  intro i hip hiq
  have hir : i < r := by rwa [hp.1] at hip
  apply List.ext_getElem
  · rw [hp.2 _ (List.getElem_mem hip), hq.2 _ (List.getElem_mem hiq)]
  intro j hjp hjq
  have hjc : j < c := by rwa [hp.2 _ (List.getElem_mem hip)] at hjp
  have := h i hir j hjc
  rwa [entry_eq_getElem hip hjp, entry_eq_getElem hiq hjq] at this

/-! ### The Mathlib bridge -/


theorem toMatrix_apply (m : Mat α) (r c : Nat) (i : Fin r) (j : Fin c) :
    toMatrix m r c i j = entry m i j := rfl

theorem toMatrix_identity (n : Nat) : toMatrix (identity n : Mat α) n n = 1 := by
  ext i j
  rw [toMatrix_apply, entry_identity i.isLt j.isLt, Matrix.one_apply]
  simp [Fin.ext_iff]

theorem sum_map_range (f : Nat → α) (n : Nat) :
    ((List.range n).map f).sum = ∑ j ∈ Finset.range n, f j := by
  induction n with
  | zero => simp
  | succ k ih => simp [List.range_succ, Finset.sum_range_succ, ih]

/-! ### `multiply` lemmas -/

theorem multiply_mismatch {a b : Mat α} (h : (dimensions a).2 ≠ (dimensions b).1) :
    multiply a b =
      .error (.dimensionMismatch (dimensions a) (dimensions b)) := by
  simp [multiply, h]

theorem multiply_ok {a b : Mat α} (h : (dimensions a).2 = (dimensions b).1) :
    multiply a b = .ok (mkMat (dimensions a).1 (dimensions b).2 fun i j =>
      ((List.range (dimensions a).2).map fun k => entry a i k * entry b k j).sum) := by
  simp [multiply, h]

/-- On well-formed operands, `multiply` succeeds and its result is the
Mathlib product of the operands. -/
theorem multiply_spec {a b : Mat α} {r c d : Nat} (ha : wellFormed a r c)
    (hb : wellFormed b c d) (hr : 0 < r) (hc : 0 < c) :
    multiply a b = .ok (mkMat r d fun i j =>
        ((List.range c).map fun k => entry a i k * entry b k j).sum) ∧
      wellFormed (mkMat r d fun i j =>
        ((List.range c).map fun k => entry a i k * entry b k j).sum) r d ∧
      toMatrix (mkMat r d fun i j =>
        ((List.range c).map fun k => entry a i k * entry b k j).sum) r d =
        toMatrix a r c * toMatrix b c d := by
  have hda := dimensions_of_wf ha hr
  have hdb := dimensions_of_wf hb hc
  refine ⟨?_, wellFormed_mkMat r d _, ?_⟩
  · rw [multiply_ok (by rw [hda, hdb]), hda, hdb]
  · ext i j
    rw [toMatrix_apply, entry_mkMat _ i.isLt j.isLt, sum_map_range, Matrix.mul_apply,
      ← Fin.sum_univ_eq_sum_range]
    rfl

/-! ### `determinant` lemmas -/

theorem foldlM_ok_of_forall {β : Type} {l : List Nat}
    {f : β → Nat → Except MatError β} {g : β → Nat → β}
    (h : ∀ acc, ∀ j ∈ l, f acc j = .ok (g acc j)) :
    ∀ acc, l.foldlM f acc = .ok (l.foldl g acc) := by
  induction l with
  | nil => intro acc; rfl
  | cons a t ih =>
    intro acc
    rw [List.foldlM_cons, h acc a (by simp), List.foldl_cons]
    exact ih (fun acc' j hj => h acc' j (by simp [hj])) _

theorem foldl_add_eq_sum (g : Nat → α) (l : List Nat) (acc : α) :
    l.foldl (fun a j => a + g j) acc = acc + (l.map g).sum := by
  induction l generalizing acc with
  | nil => simp
  | cons a t ih => simp [ih, add_assoc]

/-- Evaluating the Laplace-expansion accumulation loop when every recursive
call succeeds. -/
theorem det_fold_eq {m : Mat α} {n : Nat} (D : Nat → α)
    (h : ∀ j ∈ List.range n, determinant (minor m 0 j) = .ok (D j)) :
    (List.range n).foldlM (fun det j => (determinant (minor m 0 j)).map
        fun d => det + (-1 : α) ^ j * entry m 0 j * d) 0 =
      .ok (((List.range n).map fun j => (-1 : α) ^ j * entry m 0 j * D j).sum) := by
  suffices hgen : ∀ l : List Nat, (∀ j ∈ l, determinant (minor m 0 j) = .ok (D j)) →
      ∀ acc : α, l.foldlM (fun det j => (determinant (minor m 0 j)).map
          fun d => det + (-1 : α) ^ j * entry m 0 j * d) acc =
        .ok (acc + (l.map fun j => (-1 : α) ^ j * entry m 0 j * D j).sum) by
    rw [hgen _ h 0, zero_add]
  intro l
  induction l with
  | nil => intro _ acc; simp; rfl
  | cons a t ih =>
    intro hl acc
    rw [List.foldlM_cons, hl a (by simp)]
    have hbind : ∀ (v : α) (f : α → Except MatError α),
        ((Except.ok v).map fun d => acc + (-1 : α) ^ a * entry m 0 a * d) >>= f =
          f (acc + (-1 : α) ^ a * entry m 0 a * v) := fun _ _ => rfl
    rw [hbind]
    rw [ih (fun j hj => hl j (by simp [hj]))]
    simp [add_assoc]

theorem length_minor0 (m : Mat α) (col : Nat) :
    (minor m 0 col).length = m.length - 1 := by
  simp only [minor, List.length_map, List.length_eraseIdx]
  split <;> omega

theorem wellFormed_minor {m : Mat α} {r c row col : Nat}
    (h : wellFormed m (r + 1) (c + 1)) (hrow : row < r + 1) (hcol : col < c + 1) :
    wellFormed (minor m row col) r c := by
  constructor
  · simp only [minor, List.length_map]
    rw [List.length_eraseIdx_of_lt (by rw [h.1]; exact hrow), h.1]
    omega
  · intro rw' hrw'
    simp only [minor, List.mem_map] at hrw'
    obtain ⟨orig, horig, rfl⟩ := hrw'
    have : orig.length = c + 1 := h.2 _ (List.mem_of_mem_eraseIdx horig)
    rw [List.length_eraseIdx_of_lt (by rw [this]; exact hcol), this]
    omega

theorem entry_minor0 (m : Mat α) (col i j : Nat) :
    entry (minor m 0 col) i j = entry m (i + 1) (if j < col then j else j + 1) := by
  have router : (minor m 0 col).getD i [] = ((m.eraseIdx 0).getD i []).eraseIdx col := by
    rw [minor, List.getD_eq_getElem?_getD ((m.eraseIdx 0).map fun r => r.eraseIdx col) i,
      List.getD_eq_getElem?_getD (m.eraseIdx 0) i, List.getElem?_map]
    cases (m.eraseIdx 0)[i]? <;> simp
  have hrow : (m.eraseIdx 0).getD i [] = m.getD (i + 1) [] := by
    rw [List.getD_eq_getElem?_getD (m.eraseIdx 0) i, List.getD_eq_getElem?_getD m (i + 1),
      List.getElem?_eraseIdx_of_ge _ _ _ (Nat.zero_le i)]
  rw [entry, entry, router, hrow]
  rw [List.getD_eq_getElem?_getD ((m.getD (i + 1) []).eraseIdx col) j,
    List.getD_eq_getElem?_getD (m.getD (i + 1) []) (if j < col then j else j + 1),
    List.getElem?_eraseIdx]
  split <;> rfl

theorem coe_succAbove {n : Nat} (j : Fin (n + 1)) (b : Fin n) :
    ((j.succAbove b : Fin (n + 1)) : Nat) =
      if (b : Nat) < (j : Nat) then (b : Nat) else (b : Nat) + 1 := by
  rcases Nat.lt_or_ge (b : Nat) (j : Nat) with hb | hb
  · rw [Fin.succAbove_of_castSucc_lt _ _ (by simpa [Fin.lt_iff_val_lt_val]), if_pos hb]
    rfl
  · rw [Fin.succAbove_of_le_castSucc _ _ (by simpa [Fin.le_iff_val_le_val]), if_neg (by omega)]
    rfl

theorem toMatrix_minor0 {m : Mat α} {n : Nat} (j : Fin (n + 1)) :
    toMatrix (minor m 0 j) n n =
      (toMatrix m (n + 1) (n + 1)).submatrix Fin.succ j.succAbove := by
  ext a b
  rw [toMatrix_apply, entry_minor0, Matrix.submatrix_apply, toMatrix_apply, Fin.val_succ,
    coe_succAbove]

/-- On a well-formed square matrix of positive size, the source determinant
succeeds and computes the mathematical determinant. -/
theorem determinant_spec {n : Nat} :
    ∀ {m : Mat α}, wellFormed m (n + 1) (n + 1) →
      determinant m = .ok ((toMatrix m (n + 1) (n + 1)).det) := by
  induction n using Nat.strong_induction_on with
  | _ n ih =>
  intro m h
  have hdim := dimensions_of_wf h (Nat.succ_pos n)
  have hlen : m.length = n + 1 := h.1
  have hhead : (m.headD []).length = n + 1 := by
    have := congrArg Prod.snd hdim
    simpa [dimensions] using this
  have hunfold : determinant m = detFuel m.length m := rfl
  rw [hunfold, hlen, detFuel]
  rw [if_neg (by omega)]
  rcases Nat.lt_or_ge n 3 with h3 | h3
  · interval_cases n
    · rw [if_neg (by omega), if_pos (by omega)]
      rw [Matrix.det_fin_one]
      rfl
    · rw [if_neg (by omega), if_neg (by omega), if_pos (by omega)]
      rw [Matrix.det_fin_two]
      rfl
    · rw [if_neg (by omega), if_neg (by omega), if_neg (by omega), if_pos (by omega)]
      rw [Matrix.det_fin_three]
      rw [Except.ok.injEq]
      simp only [toMatrix_apply, Fin.val_zero, Fin.val_one, Fin.val_two]
      ring
  · rw [if_neg (by omega), if_neg (by omega), if_neg (by omega), if_neg (by omega)]
    obtain ⟨k, rfl⟩ : ∃ k, n = k + 1 := ⟨n - 1, by omega⟩
    have hminor : ∀ j ∈ List.range m.length,
        determinant (minor m 0 j) = .ok ((toMatrix (minor m 0 j) (k + 1) (k + 1)).det) := by
      intro j hj
      rw [List.mem_range] at hj
      exact ih k (by omega) (wellFormed_minor h (by omega) (by omega))
    have hfix : (fun (det : α) j => (detFuel (k + 1) (minor m 0 j)).map
        fun d => det + (-1 : α) ^ j * entry m 0 j * d) =
        (fun (det : α) j => (determinant (minor m 0 j)).map
        fun d => det + (-1 : α) ^ j * entry m 0 j * d) := by
      funext det j
      have hd : determinant (minor m 0 j) =
          detFuel (minor m 0 j).length (minor m 0 j) := rfl
      rw [hd, length_minor0, hlen, Nat.add_sub_cancel]
    rw [hfix]
    rw [det_fold_eq (fun j => (toMatrix (minor m 0 j) (k + 1) (k + 1)).det) hminor]
    rw [sum_map_range, Except.ok.injEq, hlen]
    rw [Matrix.det_succ_row_zero, ← Fin.sum_univ_eq_sum_range
      (fun j => (-1 : α) ^ j * entry m 0 j *
        ((toMatrix (minor m 0 j) (k + 1) (k + 1)).det))]
    apply Finset.sum_congr rfl
    intro j _
    rw [toMatrix_minor0 j]
    rfl

/-! ### Gauss–Jordan elimination: row-operation lemmas -/

theorem getD_set_self {β : Type} (l : List β) (k : Nat) (a d : β) (h : k < l.length) :
    (l.set k a).getD k d = a := by
  rw [List.getD_eq_getElem?_getD, List.getElem?_set_self h]
  rfl

theorem getD_set_ne {β : Type} (l : List β) (k k' : Nat) (a d : β) (h : k ≠ k') :
    (l.set k a).getD k' d = l.getD k' d := by
  rw [List.getD_eq_getElem?_getD, List.getElem?_set_ne h, ← List.getD_eq_getElem?_getD]

theorem rowLength_set {β : Type} {l : List (List β)} {c : Nat} {a : List β}
    (hl : ∀ row ∈ l, row.length = c) (ha : a.length = c) :
    ∀ row ∈ l.set k a, row.length = c := by
  intro row hrow
  rcases List.mem_or_eq_of_mem_set hrow with h | rfl
  · exact hl _ h
  · exact ha

theorem gjSwap_length (aug : Mat α) (i j : Nat) : (gjSwap aug i j).length = aug.length := by
  simp [gjSwap]

theorem gjSwap_getD (aug : Mat α) (i j k : Nat) (hi : i < aug.length)
    (hj : j < aug.length) :
    (gjSwap aug i j).getD k [] =
      if k = j then aug.getD i [] else if k = i then aug.getD j [] else aug.getD k [] := by
  unfold gjSwap
  rcases eq_or_ne k j with rfl | hkj
  · rw [if_pos rfl, getD_set_self _ _ _ _ (by simpa using hj)]
  · rw [if_neg hkj, getD_set_ne _ _ _ _ _ (Ne.symm hkj)]
    rcases eq_or_ne k i with rfl | hki
    · rw [if_pos rfl, getD_set_self _ _ _ _ hi]
    · rw [if_neg hki, getD_set_ne _ _ _ _ _ (Ne.symm hki)]

theorem gjSwap_rowLength {aug : Mat α} {c : Nat} {i j : Nat} (hi : i < aug.length)
    (hj : j < aug.length) (h : ∀ row ∈ aug, row.length = c) :
    ∀ row ∈ gjSwap aug i j, row.length = c := by
  intro row hrow
  unfold gjSwap at hrow
  rcases List.mem_or_eq_of_mem_set hrow with h' | rfl
  · rcases List.mem_or_eq_of_mem_set h' with h'' | rfl
    · exact h _ h''
    · rw [getD_lt _ hj]
      exact h _ (List.getElem_mem hj)
  · rw [getD_lt _ hi]
    exact h _ (List.getElem_mem hi)

theorem getD_map_div (row : List α) (p : α) (j : Nat) :
    ((row.map fun x => x / p).getD j 0) = row.getD j 0 / p := by
  rw [List.getD_eq_getElem?_getD, List.getD_eq_getElem?_getD, List.getElem?_map]
  cases row[j]? with
  | none => simp
  | some v => rfl

theorem gjScaleRow_length (aug : Mat α) (i : Nat) (p : α) :
    (gjScaleRow aug i p).length = aug.length := by
  simp [gjScaleRow]

theorem gjScaleRow_getD_self (aug : Mat α) (i : Nat) (p : α) (h : i < aug.length) :
    (gjScaleRow aug i p).getD i [] = (aug.getD i []).map fun x => x / p :=
  getD_set_self _ _ _ _ h

theorem gjScaleRow_getD_ne (aug : Mat α) (i k : Nat) (p : α) (h : i ≠ k) :
    (gjScaleRow aug i p).getD k [] = aug.getD k [] :=
  getD_set_ne _ _ _ _ _ h

theorem gjScaleRow_rowLength {aug : Mat α} {c : Nat} {i : Nat} (p : α)
    (hi : i < aug.length) (h : ∀ row ∈ aug, row.length = c) :
    ∀ row ∈ gjScaleRow aug i p, row.length = c := by
  intro row hrow
  unfold gjScaleRow at hrow
  rcases List.mem_or_eq_of_mem_set hrow with h' | rfl
  · exact h _ h'
  · rw [List.length_map, getD_lt _ hi]
    exact h _ (List.getElem_mem hi)

theorem zipWith_sub_getD (r1 r2 : List α) (f : α) (j : Nat) (h : r1.length = r2.length) :
    (List.zipWith (fun x y => x - f * y) r1 r2).getD j 0 =
      r1.getD j 0 - f * r2.getD j 0 := by
  rw [List.getD_eq_getElem?_getD, List.getD_eq_getElem?_getD, List.getD_eq_getElem?_getD,
    List.getElem?_zipWith]
  rcases Nat.lt_or_ge j r1.length with hj | hj
  · rw [List.getElem?_eq_getElem hj, List.getElem?_eq_getElem (by omega : j < r2.length)]
    rfl
  · rw [List.getElem?_eq_none hj, List.getElem?_eq_none (by omega : r2.length ≤ j)]
    simp


theorem gjEliminate_eq_foldl (aug : Mat α) (i size : Nat) :
    gjEliminate aug i size = (List.range size).foldl (gjElimStep i) aug := rfl

theorem gjElimStep_length (i : Nat) (A : Mat α) (k : Nat) :
    (gjElimStep i A k).length = A.length := by
  unfold gjElimStep
  split <;> simp

theorem gjElimStep_foldl_length (i : Nat) (l : List Nat) (A : Mat α) :
    (l.foldl (gjElimStep i) A).length = A.length := by
  induction l generalizing A with
  | nil => rfl
  | cons a t ih => rw [List.foldl_cons, ih, gjElimStep_length]

/-- Rows of the elimination fold: every `k ∈ l` with `k ≠ i` is rewritten
once, relative to the starting state; all other rows are untouched. -/
theorem gjElimStep_foldl_getD (i : Nat) (l : List Nat) (aug : Mat α)
    (hnd : l.Nodup) (hl : ∀ x ∈ l, x < aug.length) :
    ∀ k, (l.foldl (gjElimStep i) aug).getD k [] =
      if k ∈ l ∧ k ≠ i then
        List.zipWith (fun x y => x - entry aug k i * y) (aug.getD k []) (aug.getD i [])
      else aug.getD k [] := by
  induction l generalizing aug with
  | nil => intro k; simp
  | cons a t ih =>
    intro k
    rw [List.foldl_cons]
    rcases eq_or_ne a i with rfl | hai
    · have hstep : gjElimStep a aug a = aug := by unfold gjElimStep; rw [if_pos rfl]
      rw [hstep, ih aug hnd.of_cons (fun x hx => hl x (by simp [hx])) k]
      rcases eq_or_ne k a with rfl | hka
      · simp
      · simp [hka]
    · have hstep : gjElimStep i aug a =
          aug.set a (List.zipWith (fun x y => x - entry aug a i * y)
            (aug.getD a []) (aug.getD i [])) := by
        unfold gjElimStep
        rw [if_neg hai]
      have ha : a < aug.length := hl a (by simp)
      have hanotint : a ∉ t := (List.nodup_cons.mp hnd).1
      set A' := aug.set a (List.zipWith (fun x y => x - entry aug a i * y)
        (aug.getD a []) (aug.getD i [])) with hA'
      have hA'len : A'.length = aug.length := by simp [hA']
      have hrows : ∀ x ∈ t, x ≠ a → (A'.getD x [] = aug.getD x []) := by
        intro x _ hx
        exact getD_set_ne _ _ _ _ _ (Ne.symm hx)
      have hrowi : A'.getD i [] = aug.getD i [] :=
        getD_set_ne _ _ _ _ _ hai
      rw [hstep, ih A' hnd.of_cons (fun x hx => by rw [hA'len]; exact hl x (by simp [hx])) k]
      rcases eq_or_ne k a with rfl | hka
      · -- row `a` is not in `t`, so the tail fold leaves it as `A'` set it
        rw [if_neg (by simp [hanotint])]
        rw [if_pos ⟨by simp, hai⟩]
        rw [hA', getD_set_self _ _ _ _ ha]
      · rcases Decidable.em (k ∈ t ∧ k ≠ i) with hk | hk
        · rw [if_pos hk, if_pos ⟨by simp [hk.1], hk.2⟩]
          have h1 : A'.getD k [] = aug.getD k [] :=
            hrows k hk.1 (fun h => hka h)
          have h2 : entry A' k i = entry aug k i := by
            rw [entry, entry, h1]
          rw [h1, h2, hrowi]
        · rw [if_neg hk, if_neg (by
            rintro ⟨hmem, hne⟩
            rcases List.mem_cons.mp hmem with h' | h'
            · exact hka h'
            · exact hk ⟨h', hne⟩)]
          rcases eq_or_ne k i with rfl | hki
          · exact hrowi
          · rw [hA', getD_set_ne _ _ _ _ _ (Ne.symm hka)]

theorem gjEliminate_getD (aug : Mat α) (i size : Nat) (hsize : size ≤ aug.length) :
    ∀ k, (gjEliminate aug i size).getD k [] =
      if k < size ∧ k ≠ i then
        List.zipWith (fun x y => x - entry aug k i * y) (aug.getD k []) (aug.getD i [])
      else aug.getD k [] := by
  intro k
  rw [gjEliminate_eq_foldl, gjElimStep_foldl_getD i _ aug (List.nodup_range size)
    (fun x hx => by rw [List.mem_range] at hx; omega) k]
  simp [List.mem_range]

theorem gjEliminate_length (aug : Mat α) (i size : Nat) :
    (gjEliminate aug i size).length = aug.length := by
  rw [gjEliminate_eq_foldl, gjElimStep_foldl_length]

/-- The row chosen by partial pivoting lies in `[i, size)`. -/
theorem gjPivotRow_bound (aug : Mat α) {i size : Nat} (hi : i < size) :
    i ≤ gjPivotRow aug i size ∧ gjPivotRow aug i size < size := by
  unfold gjPivotRow
  have hgen : ∀ l : List Nat, (∀ x ∈ l, i ≤ x ∧ x < size) → ∀ acc, i ≤ acc → acc < size →
      i ≤ l.foldl (fun maxRow k =>
          if |entry aug k i| > |entry aug maxRow i| then k else maxRow) acc ∧
        l.foldl (fun maxRow k =>
          if |entry aug k i| > |entry aug maxRow i| then k else maxRow) acc < size := by
    intro l
    induction l with
    | nil => intro _ acc h1 h2; exact ⟨h1, h2⟩
    | cons a t ih =>
      intro hmem acc h1 h2
      rw [List.foldl_cons]
      split
      · exact ih (fun x hx => hmem x (by simp [hx])) a (hmem a (by simp)).1
          (hmem a (by simp)).2
      · exact ih (fun x hx => hmem x (by simp [hx])) acc h1 h2
  apply hgen
  · intro x hx
    rw [List.mem_range'] at hx
    obtain ⟨w, hw, rfl⟩ := hx
    omega
  · omega
  · omega

theorem entry_gjSwap (aug : Mat α) (i r k j : Nat) (hi : i < aug.length)
    (hr : r < aug.length) :
    entry (gjSwap aug i r) k j =
      if k = r then entry aug i j else if k = i then entry aug r j else entry aug k j := by
  rw [entry, gjSwap_getD aug i r k hi hr]
  split_ifs <;> rfl

theorem entry_gjScaleRow (aug : Mat α) (i k j : Nat) (p : α) (hi : i < aug.length) :
    entry (gjScaleRow aug i p) k j =
      if k = i then entry aug i j / p else entry aug k j := by
  rcases eq_or_ne k i with rfl | hki
  · rw [entry, gjScaleRow_getD_self aug k p hi, getD_map_div, if_pos rfl]
    rfl
  · rw [entry, gjScaleRow_getD_ne aug i k p (Ne.symm hki), if_neg hki]
    rfl


theorem gjSwap_inv {m aug : Mat α} {n i r : Nat} (hinv : GJInv m n i aug)
    (hi : i < n) (hir : i ≤ r) (hr : r < n) : GJInv m n i (gjSwap aug i r) := by
  obtain ⟨hlen, hrows, hlin, hcol⟩ := hinv
  have hi' : i < aug.length := by omega
  have hr' : r < aug.length := by omega
  have hperm : ∀ k, k < n → ∀ j,
      entry (gjSwap aug i r) k j =
        entry aug (if k = r then i else if k = i then r else k) j := by
    intro k _ j
    rw [entry_gjSwap aug i r k j hi' hr']
    split_ifs <;> rfl
  refine ⟨by rw [gjSwap_length, hlen], gjSwap_rowLength hi' hr' hrows, ?_, ?_⟩
  · intro k hk j hj
    rw [hperm k hk j]
    have hσ : (if k = r then i else if k = i then r else k) < n := by
      split_ifs <;> omega
    rw [hlin _ hσ j hj]
    exact Finset.sum_congr rfl fun t _ => by rw [hperm k hk (n + t)]
  · intro j hj k hk
    rw [hperm k hk j]
    have hji : j ≠ i := by omega
    have hjr : j ≠ r := by omega
    rcases eq_or_ne k r with hkr | hkr
    · rw [if_pos hkr, hcol j hj i hi, if_neg (show ¬i = j by omega),
        if_neg (show ¬k = j by omega)]
    · rw [if_neg hkr]
      rcases eq_or_ne k i with hki | hki
      · rw [if_pos hki, hcol j hj r hr, if_neg (show ¬r = j by omega),
        if_neg (show ¬k = j by omega)]
      · rw [if_neg hki, hcol j hj k hk]

theorem gjScaleRow_inv {m aug : Mat α} {n i : Nat} {p : α} (hinv : GJInv m n i aug)
    (hi : i < n) (hp : p ≠ 0) : GJInv m n i (gjScaleRow aug i p) := by
  obtain ⟨hlen, hrows, hlin, hcol⟩ := hinv
  have hi' : i < aug.length := by omega
  have hent : ∀ k j, entry (gjScaleRow aug i p) k j =
      if k = i then entry aug i j / p else entry aug k j := fun k j =>
    entry_gjScaleRow aug i k j p hi'
  refine ⟨by rw [gjScaleRow_length, hlen], gjScaleRow_rowLength p hi' hrows, ?_, ?_⟩
  · intro k hk j hj
    rcases eq_or_ne k i with rfl | hki
    · rw [hent k j, if_pos rfl, hlin k hk j hj, Finset.sum_div]
      refine Finset.sum_congr rfl fun t _ => ?_
      rw [hent k (n + t), if_pos rfl, div_mul_eq_mul_div]
    · rw [hent k j, if_neg hki, hlin k hk j hj]
      exact Finset.sum_congr rfl fun t _ => by rw [hent k (n + t), if_neg hki]
  · intro j hj k hk
    rw [hent k j]
    rcases eq_or_ne k i with rfl | hki
    · rw [if_pos rfl, hcol j hj k hk, if_neg (show ¬k = j by omega), zero_div]
    · rw [if_neg hki, hcol j hj k hk]

theorem gjEliminate_inv {m aug : Mat α} {n i : Nat} (hinv : GJInv m n i aug)
    (hi : i < n) (hdiag : entry aug i i = 1) :
    GJInv m n (i + 1) (gjEliminate aug i n) := by
  obtain ⟨hlen, hrows, hlin, hcol⟩ := hinv
  have hsize : n ≤ aug.length := by omega
  have hrowlen : ∀ k, k < n → (aug.getD k []).length = n + n := by
    intro k hk
    rw [getD_lt _ (by omega)]
    exact hrows _ (List.getElem_mem (by omega))
  have hent : ∀ k, k < n → ∀ j, entry (gjEliminate aug i n) k j =
      if k = i then entry aug i j
      else entry aug k j - entry aug k i * entry aug i j := by
    intro k hk j
    rw [entry, gjEliminate_getD aug i n hsize k]
    rcases eq_or_ne k i with rfl | hki
    · rw [if_neg (by simp), if_pos rfl]
      rfl
    · rw [if_pos ⟨hk, hki⟩, if_neg hki,
        zipWith_sub_getD _ _ _ _ (by rw [hrowlen k hk, hrowlen i hi])]
      rfl
  constructor
  · rw [gjEliminate_length, hlen]
  constructor
  · intro row hrow
    rw [gjEliminate_eq_foldl] at hrow
    rw [List.mem_iff_getElem] at hrow
    obtain ⟨k, hk, rfl⟩ := hrow
    rw [← getD_lt [] hk, gjElimStep_foldl_getD i _ aug (List.nodup_range n)
      (fun x hx => by rw [List.mem_range] at hx; omega) k]
    have hk' : k < n := by rwa [gjElimStep_foldl_length, hlen] at hk
    split_ifs with h
    · rw [List.length_zipWith, hrowlen k hk', hrowlen i hi]
      omega
    · exact hrowlen k hk'
  constructor
  · intro k hk j hj
    rw [hent k hk j]
    rcases eq_or_ne k i with rfl | hki
    · rw [if_pos rfl, hlin k hk j hj]
      exact Finset.sum_congr rfl fun t _ => by rw [hent k hk (n + t), if_pos rfl]
    · rw [if_neg hki, hlin k hk j hj, hlin i hi j hj, Finset.mul_sum,
        ← Finset.sum_sub_distrib]
      refine Finset.sum_congr rfl fun t _ => ?_
      rw [hent k hk (n + t), if_neg hki]
      ring
  · intro j hj k hk
    rw [hent k hk j]
    rcases Nat.lt_or_ge j i with hji | hji
    · rcases eq_or_ne k i with rfl | hki
      · rw [if_pos rfl, hcol j hji k hk]
      · rw [if_neg hki, hcol j hji k hk, hcol j hji i hi, if_neg (show ¬i = j by omega),
          mul_zero, sub_zero]
    · have hjeq : j = i := by omega
      subst hjeq
      rcases eq_or_ne k j with rfl | hkj
      · rw [if_pos rfl, hdiag, if_pos rfl]
      · rw [if_neg hkj, hdiag, mul_one, sub_self, if_neg hkj]

theorem gjStep_inv {m aug aug' : Mat α} {n i : Nat} (hinv : GJInv m n i aug)
    (hi : i < n) (hstep : gjStep n aug i = .ok aug') : GJInv m n (i + 1) aug' := by
  unfold gjStep at hstep
  set r := gjPivotRow aug i n with hr
  obtain ⟨hri, hrn⟩ := gjPivotRow_bound aug hi
  set swapped := gjSwap aug i r with hswapped
  set pivot := entry swapped i i with hpivot
  by_cases hp : |pivot| < singularTol
  · rw [if_pos hp] at hstep
    exact absurd hstep (by simp)
  · rw [if_neg hp] at hstep
    have hp0 : pivot ≠ 0 := by
      intro h0
      rw [h0] at hp
      exact hp (by rw [abs_zero, singularTol]; positivity)
    have hswinv : GJInv m n i swapped := gjSwap_inv hinv hi hri hrn
    have hscinv : GJInv m n i (gjScaleRow swapped i pivot) :=
      gjScaleRow_inv hswinv hi hp0
    have hdiag : entry (gjScaleRow swapped i pivot) i i = 1 := by
      rw [entry_gjScaleRow swapped i i i pivot (show i < swapped.length by
        rw [hswinv.1]; omega), if_pos rfl, ← hpivot, div_self hp0]
    have hfin := gjEliminate_inv hscinv hi hdiag
    injection hstep with h
    exact h ▸ hfin

theorem singularTol_pos : (0 : α) < singularTol := by
  rw [singularTol]
  positivity

theorem gjLoop_inv {m : Mat α} {n : Nat} :
    ∀ (r i : Nat) (aug aug' : Mat α), i + r = n → GJInv m n i aug →
      (List.range' i r).foldlM (gjStep n) aug = .ok aug' → GJInv m n n aug' := by
  intro r
  induction r with
  | zero =>
    intro i aug aug' h hinv hfold
    have hred : (List.range' i 0).foldlM (gjStep n) aug = Except.ok aug := rfl
    rw [hred] at hfold
    injection hfold with hfold
    rw [← hfold]
    have hin : i = n := by omega
    rwa [hin] at hinv
  | succ t ih =>
    intro i aug aug' h hinv hfold
    rw [List.range'_succ, List.foldlM_cons] at hfold
    cases hstep : gjStep n aug i with
    | error e =>
      rw [hstep] at hfold
      exact Except.noConfusion hfold
    | ok aug1 =>
      rw [hstep] at hfold
      have hbind : (Except.ok aug1 >>= fun aug1 =>
          (List.range' (i + 1) t).foldlM (gjStep n) aug1) =
          (List.range' (i + 1) t).foldlM (gjStep n) aug1 := rfl
      rw [hbind] at hfold
      exact ih (i + 1) aug1 aug' (by omega) (gjStep_inv hinv (by omega) hstep) hfold

theorem gjAugment_getD {m : Mat α} {n : Nat} (hlen : m.length = n) {k : Nat}
    (hk : k < n) :
    (gjAugment m n).getD k [] = m.getD k [] ++ (identity n : Mat α).getD k [] := by
  unfold gjAugment
  have hkm : k < m.length := by omega
  have hki : k < (identity n : Mat α).length := by
    rw [(wellFormed_identity n).1]
    omega
  rw [List.getD_eq_getElem?_getD, List.getElem?_zipWith, List.getElem?_eq_getElem hkm,
    List.getElem?_eq_getElem hki, getD_lt _ hkm, getD_lt _ hki]
  rfl

theorem gjAugment_inv {m : Mat α} {n : Nat} (hwf : wellFormed m n n) :
    GJInv m n 0 (gjAugment m n) := by
  obtain ⟨hlen, hrows⟩ := hwf
  have hlen' : (gjAugment m n).length = n := by
    unfold gjAugment
    rw [List.length_zipWith, hlen, (wellFormed_identity n).1, Nat.min_self]
  have hrowlen : ∀ k, k < n → (m.getD k []).length = n := by
    intro k hk
    rw [getD_lt _ (by omega)]
    exact hrows _ (List.getElem_mem (by omega))
  have hidlen : ∀ k, k < n → ((identity n : Mat α).getD k []).length = n := by
    intro k hk
    exact rowLength_of_wf (wellFormed_identity n) hk
  have hleft : ∀ k, k < n → ∀ j, j < n → entry (gjAugment m n) k j = entry m k j := by
    intro k hk j hj
    rw [entry, gjAugment_getD hlen hk, List.getD_eq_getElem?_getD,
      List.getElem?_append_left (by rw [hrowlen k hk]; omega), ← List.getD_eq_getElem?_getD]
    rfl
  have hright : ∀ k, k < n → ∀ t, entry (gjAugment m n) k (n + t) =
      entry (identity n : Mat α) k t := by
    intro k hk t
    rw [entry, gjAugment_getD hlen hk, List.getD_eq_getElem?_getD,
      List.getElem?_append_right (by rw [hrowlen k hk]; omega), hrowlen k hk]
    have : n + t - n = t := by omega
    rw [this, ← List.getD_eq_getElem?_getD]
    rfl
  refine ⟨hlen', ?_, ?_, by omega⟩
  · intro row hrow
    rw [List.mem_iff_getElem] at hrow
    obtain ⟨k, hk, rfl⟩ := hrow
    have hk' : k < n := by omega
    rw [← getD_lt [] hk, gjAugment_getD hlen hk', List.length_append, hrowlen k hk',
      hidlen k hk']
  · intro k hk j hj
    rw [hleft k hk j hj]
    have : ∀ t ∈ Finset.range n, entry (gjAugment m n) k (n + t) * entry m t j =
        (if k = t then 1 else 0) * entry m t j := by
      intro t ht
      rw [Finset.mem_range] at ht
      rw [hright k hk t, entry_identity hk ht]
    rw [Finset.sum_congr rfl this,
      Finset.sum_congr rfl (fun t _ => show (if k = t then (1 : α) else 0) * entry m t j =
        if k = t then entry m t j else 0 by split_ifs <;> simp),
      Finset.sum_ite_eq (Finset.range n) k (fun t => entry m t j),
      if_pos (Finset.mem_range.mpr hk)]

/-- The right half of a successful elimination run is a left inverse of `m`
(as a Mathlib matrix), and is well-formed. -/
theorem gjLoop_spec {m aug' : Mat α} {n : Nat} (hwf : wellFormed m n n)
    (h : gjLoop n (gjAugment m n) = .ok aug') :
    wellFormed (aug'.map fun row => row.drop n) n n ∧
      toMatrix (aug'.map fun row => row.drop n) n n * toMatrix m n n = 1 := by
  have hinv : GJInv m n n aug' := by
    apply gjLoop_inv n 0 (gjAugment m n) aug' (by omega) (gjAugment_inv hwf)
    rw [← List.range_eq_range']
    exact h
  obtain ⟨hlen, hrows, hlin, hcol⟩ := hinv
  have hdrop : ∀ k t : Nat, entry (aug'.map fun row => row.drop n) k t =
      entry aug' k (n + t) := by
    intro k t
    rw [entry, entry, List.getD_eq_getElem?_getD (aug'.map fun row => row.drop n) k,
      List.getElem?_map]
    cases hk : aug'[k]? with
    | none =>
      rw [List.getD_eq_getElem?_getD aug' k, hk]
      simp
    | some row =>
      rw [List.getD_eq_getElem?_getD aug' k, hk]
      simp only [Option.map_some', Option.getD_some]
      rw [List.getD_eq_getElem?_getD (row.drop n) t, List.getD_eq_getElem?_getD row (n + t),
        List.getElem?_drop]
  constructor
  · refine ⟨by rw [List.length_map, hlen], ?_⟩
    intro row hrow
    rw [List.mem_map] at hrow
    obtain ⟨orig, horig, rfl⟩ := hrow
    rw [List.length_drop, hrows _ horig]
    omega
  · ext k j
    rw [Matrix.mul_apply]
    have : ∀ t : Fin n, toMatrix (aug'.map fun row => row.drop n) n n k t *
        toMatrix m n n t j = entry aug' k (n + t) * entry m t j := by
      intro t
      rw [toMatrix_apply, toMatrix_apply, hdrop]
    rw [Finset.sum_congr rfl fun t _ => this t, Fin.sum_univ_eq_sum_range
      (fun t => entry aug' k (n + t) * entry m t j), ← hlin k k.isLt j j.isLt,
      hcol j j.isLt k k.isLt, Matrix.one_apply]
    simp [Fin.ext_iff]

/-! ### `inverse` lemmas -/

theorem eq_of_toMatrix_eq {p q : Mat α} {r c : Nat} (hp : wellFormed p r c)
    (hq : wellFormed q r c) (h : toMatrix p r c = toMatrix q r c) : p = q := by
  apply mat_ext hp hq
  intro i hi j hj
  have := congrFun (congrFun h ⟨i, hi⟩) ⟨j, hj⟩
  simpa [toMatrix_apply] using this

/-- A list matrix whose Mathlib reading is a left inverse of `m` multiplies
with `m`, on either side, to the source `identity n`. -/
theorem products_of_left_inverse {m B : Mat α} {n : Nat} (hm : wellFormed m n n)
    (hB : wellFormed B n n) (hn : 0 < n)
    (h : toMatrix B n n * toMatrix m n n = 1) :
    multiply m B = .ok (identity n) ∧ multiply B m = .ok (identity n) := by
  have h2 : toMatrix m n n * toMatrix B n n = 1 := Matrix.mul_eq_one_comm.mpr h
  obtain ⟨hok1, hwf1, hmat1⟩ := multiply_spec hm hB hn hn
  obtain ⟨hok2, hwf2, hmat2⟩ := multiply_spec hB hm hn hn
  constructor
  · rw [hok1, eq_of_toMatrix_eq hwf1 (wellFormed_identity n)
      (by rw [hmat1, h2, toMatrix_identity])]
  · rw [hok2, eq_of_toMatrix_eq hwf2 (wellFormed_identity n)
      (by rw [hmat2, h, toMatrix_identity])]

theorem inverse_notSquare {m : Mat α} (h : m.length ≠ (m.headD []).length) :
    inverse m = .error (.notSquare (m.length, (m.headD []).length)) := by
  unfold inverse
  rw [if_pos h]

theorem inverse_singular {m : Mat α} {d : α} (hsq : m.length = (m.headD []).length)
    (hdet : determinant m = .ok d) (hd : |d| < singularTol) :
    inverse m = .error .singular := by
  unfold inverse
  rw [if_neg (not_ne_iff.mpr hsq), hdet]
  dsimp only
  rw [if_pos hd]

theorem inverse_two {m : Mat α} {d : α} (hsq : m.length = (m.headD []).length)
    (hdet : determinant m = .ok d) (hd : ¬|d| < singularTol) (h2 : m.length = 2) :
    inverse m = .ok [[entry m 1 1 / d, -entry m 0 1 / d],
                     [-entry m 1 0 / d, entry m 0 0 / d]] := by
  unfold inverse
  rw [if_neg (not_ne_iff.mpr hsq), hdet]
  dsimp only
  rw [if_neg hd, if_pos h2]

theorem inverse_three {m : Mat α} {d : α} (hsq : m.length = (m.headD []).length)
    (hdet : determinant m = .ok d) (hd : ¬|d| < singularTol) (h3 : m.length = 3) :
    inverse m = .ok
      [[(entry m 1 1 * entry m 2 2 - entry m 1 2 * entry m 2 1) / d,
        (entry m 0 2 * entry m 2 1 - entry m 0 1 * entry m 2 2) / d,
        (entry m 0 1 * entry m 1 2 - entry m 0 2 * entry m 1 1) / d],
       [(entry m 1 2 * entry m 2 0 - entry m 1 0 * entry m 2 2) / d,
        (entry m 0 0 * entry m 2 2 - entry m 0 2 * entry m 2 0) / d,
        (entry m 0 2 * entry m 1 0 - entry m 0 0 * entry m 1 2) / d],
       [(entry m 1 0 * entry m 2 1 - entry m 1 1 * entry m 2 0) / d,
        (entry m 0 1 * entry m 2 0 - entry m 0 0 * entry m 2 1) / d,
        (entry m 0 0 * entry m 1 1 - entry m 0 1 * entry m 1 0) / d]] := by
  unfold inverse
  rw [if_neg (not_ne_iff.mpr hsq), hdet]
  dsimp only
  rw [if_neg hd, if_neg (by omega), if_pos h3]

theorem inverse_gauss {m : Mat α} {d : α} (hsq : m.length = (m.headD []).length)
    (hdet : determinant m = .ok d) (hd : ¬|d| < singularTol) (h2 : m.length ≠ 2)
    (h3 : m.length ≠ 3) :
    inverse m = (gjLoop m.length (gjAugment m m.length)).map
      fun aug => aug.map fun row => row.drop m.length := by
  unfold inverse
  rw [if_neg (not_ne_iff.mpr hsq), hdet]
  dsimp only
  rw [if_neg hd, if_neg h2, if_neg h3]

theorem gjStep_error {n : Nat} {aug : Mat α} {i : Nat} {e : MatError}
    (h : gjStep n aug i = .error e) : e = .singular := by
  unfold gjStep at h
  dsimp only at h
  split at h
  · injection h with h
    exact h.symm
  · exact Except.noConfusion h

theorem gjLoop_error_singular {n : Nat} {aug : Mat α} {e : MatError}
    (h : gjLoop n aug = .error e) : e = .singular := by
  unfold gjLoop at h
  suffices hgen : ∀ (l : List Nat) (aug : Mat α),
      l.foldlM (gjStep n) aug = .error e → e = .singular from hgen _ _ h
  intro l
  induction l with
  | nil =>
    intro aug h'
    exact Except.noConfusion h'
  | cons a t ih =>
    intro aug h'
    rw [List.foldlM_cons] at h'
    cases hstep : gjStep n aug a with
    | error e' =>
      rw [hstep] at h'
      have : e' = e := by injection h'
      rw [← this]
      exact gjStep_error hstep
    | ok aug1 =>
      rw [hstep] at h'
      exact ih aug1 h'

theorem determinant_two {m : Mat α} (hsq : m.length = (m.headD []).length)
    (h2 : m.length = 2) :
    determinant m = .ok (entry m 0 0 * entry m 1 1 - entry m 0 1 * entry m 1 0) := by
  obtain ⟨f, hf⟩ : ∃ f, m.length = f + 1 := ⟨1, h2⟩
  have hunfold : determinant m = detFuel m.length m := rfl
  rw [hunfold, hf, detFuel]
  rw [if_neg (not_ne_iff.mpr hsq), if_neg (by omega), if_neg (by omega), if_pos h2]

theorem determinant_three {m : Mat α} (hsq : m.length = (m.headD []).length)
    (h3 : m.length = 3) :
    determinant m = .ok
      (entry m 0 0 * (entry m 1 1 * entry m 2 2 - entry m 1 2 * entry m 2 1) -
       entry m 0 1 * (entry m 1 0 * entry m 2 2 - entry m 1 2 * entry m 2 0) +
       entry m 0 2 * (entry m 1 0 * entry m 2 1 - entry m 1 1 * entry m 2 0)) := by
  obtain ⟨f, hf⟩ : ∃ f, m.length = f + 1 := ⟨2, h3⟩
  have hunfold : determinant m = detFuel m.length m := rfl
  rw [hunfold, hf, detFuel]
  rw [if_neg (not_ne_iff.mpr hsq), if_neg (by omega), if_neg (by omega), if_neg (by omega),
    if_pos h3]

theorem hsq_of_wf {m : Mat α} {n : Nat} (hwf : wellFormed m n n) (hn : 0 < n) :
    m.length = (m.headD []).length := by
  have hdim := dimensions_of_wf hwf hn
  have h1 := congrArg Prod.fst hdim
  have h2 := congrArg Prod.snd hdim
  simp only [dimensions] at h1 h2
  rw [h1, h2]

theorem inverse_two_left {m : Mat α} {d : α} (hwf : wellFormed m 2 2)
    (hdet : determinant m = .ok d) (hd0 : d ≠ 0) :
    toMatrix [[entry m 1 1 / d, -entry m 0 1 / d],
              [-entry m 1 0 / d, entry m 0 0 / d]] 2 2 * toMatrix m 2 2 = 1 := by
  have hsq := hsq_of_wf hwf (by omega)
  have hd2 : d = entry m 0 0 * entry m 1 1 - entry m 0 1 * entry m 1 0 := by
    have h := determinant_two hsq hwf.1
    rw [hdet] at h
    injection h
  ext i j
  rw [Matrix.mul_apply, Fin.sum_univ_two, Matrix.one_apply]
  fin_cases i <;> fin_cases j <;>
    simp only [toMatrix_apply, Fin.ext_iff, Fin.val_zero, Fin.val_one, Fin.isValue,
      if_true, if_false, Nat.zero_ne_one, Nat.one_ne_zero, ite_true, ite_false,
      reduceCtorEq, Fin.mk_one, Fin.mk_zero]
  · rw [show entry [[entry m 1 1 / d, -entry m 0 1 / d], [-entry m 1 0 / d,
        entry m 0 0 / d]] 0 0 * entry m 0 0 + entry [[entry m 1 1 / d, -entry m 0 1 / d],
        [-entry m 1 0 / d, entry m 0 0 / d]] 0 1 * entry m 1 0 =
        (entry m 0 0 * entry m 1 1 - entry m 0 1 * entry m 1 0) / d from by
          show entry m 1 1 / d * entry m 0 0 + -entry m 0 1 / d * entry m 1 0 = _
          ring]
    rw [← hd2, div_self hd0]
  · rw [show entry [[entry m 1 1 / d, -entry m 0 1 / d], [-entry m 1 0 / d,
        entry m 0 0 / d]] 0 0 * entry m 0 1 + entry [[entry m 1 1 / d, -entry m 0 1 / d],
        [-entry m 1 0 / d, entry m 0 0 / d]] 0 1 * entry m 1 1 = 0 from by
          show entry m 1 1 / d * entry m 0 1 + -entry m 0 1 / d * entry m 1 1 = 0
          ring]
  · rw [show entry [[entry m 1 1 / d, -entry m 0 1 / d], [-entry m 1 0 / d,
        entry m 0 0 / d]] 1 0 * entry m 0 0 + entry [[entry m 1 1 / d, -entry m 0 1 / d],
        [-entry m 1 0 / d, entry m 0 0 / d]] 1 1 * entry m 1 0 = 0 from by
          show -entry m 1 0 / d * entry m 0 0 + entry m 0 0 / d * entry m 1 0 = 0
          ring]
  · rw [show entry [[entry m 1 1 / d, -entry m 0 1 / d], [-entry m 1 0 / d,
        entry m 0 0 / d]] 1 0 * entry m 0 1 + entry [[entry m 1 1 / d, -entry m 0 1 / d],
        [-entry m 1 0 / d, entry m 0 0 / d]] 1 1 * entry m 1 1 =
        (entry m 0 0 * entry m 1 1 - entry m 0 1 * entry m 1 0) / d from by
          show -entry m 1 0 / d * entry m 0 1 + entry m 0 0 / d * entry m 1 1 = _
          ring]
    rw [← hd2, div_self hd0]

theorem eq_literal_three {m : Mat α} (hwf : wellFormed m 3 3) :
    m = [[entry m 0 0, entry m 0 1, entry m 0 2],
         [entry m 1 0, entry m 1 1, entry m 1 2],
         [entry m 2 0, entry m 2 1, entry m 2 2]] := by
  refine mat_ext hwf ⟨rfl, ?_⟩ ?_
  · intro row hrow
    simp only [List.mem_cons, List.not_mem_nil, or_false] at hrow
    rcases hrow with rfl | rfl | rfl <;> rfl
  · intro i hi j hj
    interval_cases i <;> interval_cases j <;> rfl

theorem inverse_three_left_lit (a b c dd e f g h k D : α)
    (hD : D = a * (e * k - f * h) - b * (dd * k - f * g) + c * (dd * h - e * g))
    (hD0 : D ≠ 0) :
    toMatrix [[(e * k - f * h) / D, (c * h - b * k) / D, (b * f - c * e) / D],
              [(f * g - dd * k) / D, (a * k - c * g) / D, (c * dd - a * f) / D],
              [(dd * h - e * g) / D, (b * g - a * h) / D, (a * e - b * dd) / D]] 3 3 *
      toMatrix [[a, b, c], [dd, e, f], [g, h, k]] 3 3 = 1 := by
  ext x y
  rw [Matrix.mul_apply, Fin.sum_univ_three, Matrix.one_apply]
  fin_cases x <;> fin_cases y
  · show (e * k - f * h) / D * a + (c * h - b * k) / D * dd + (b * f - c * e) / D * g = 1
    rw [show (e * k - f * h) / D * a + (c * h - b * k) / D * dd +
        (b * f - c * e) / D * g = D / D from by rw [hD]; ring, div_self hD0]
  · show (e * k - f * h) / D * b + (c * h - b * k) / D * e + (b * f - c * e) / D * h = 0
    ring
  · show (e * k - f * h) / D * c + (c * h - b * k) / D * f + (b * f - c * e) / D * k = 0
    ring
  · show (f * g - dd * k) / D * a + (a * k - c * g) / D * dd + (c * dd - a * f) / D * g = 0
    ring
  · show (f * g - dd * k) / D * b + (a * k - c * g) / D * e + (c * dd - a * f) / D * h = 1
    rw [show (f * g - dd * k) / D * b + (a * k - c * g) / D * e +
        (c * dd - a * f) / D * h = D / D from by rw [hD]; ring, div_self hD0]
  · show (f * g - dd * k) / D * c + (a * k - c * g) / D * f + (c * dd - a * f) / D * k = 0
    ring
  · show (dd * h - e * g) / D * a + (b * g - a * h) / D * dd + (a * e - b * dd) / D * g = 0
    ring
  · show (dd * h - e * g) / D * b + (b * g - a * h) / D * e + (a * e - b * dd) / D * h = 0
    ring
  · show (dd * h - e * g) / D * c + (b * g - a * h) / D * f + (a * e - b * dd) / D * k = 1
    rw [show (dd * h - e * g) / D * c + (b * g - a * h) / D * f +
        (a * e - b * dd) / D * k = D / D from by rw [hD]; ring, div_self hD0]

theorem inverse_three_left {m : Mat α} {d : α} (hwf : wellFormed m 3 3)
    (hdet : determinant m = .ok d) (hd0 : d ≠ 0) :
    toMatrix
      [[(entry m 1 1 * entry m 2 2 - entry m 1 2 * entry m 2 1) / d,
        (entry m 0 2 * entry m 2 1 - entry m 0 1 * entry m 2 2) / d,
        (entry m 0 1 * entry m 1 2 - entry m 0 2 * entry m 1 1) / d],
       [(entry m 1 2 * entry m 2 0 - entry m 1 0 * entry m 2 2) / d,
        (entry m 0 0 * entry m 2 2 - entry m 0 2 * entry m 2 0) / d,
        (entry m 0 2 * entry m 1 0 - entry m 0 0 * entry m 1 2) / d],
       [(entry m 1 0 * entry m 2 1 - entry m 1 1 * entry m 2 0) / d,
        (entry m 0 1 * entry m 2 0 - entry m 0 0 * entry m 2 1) / d,
        (entry m 0 0 * entry m 1 1 - entry m 0 1 * entry m 1 0) / d]] 3 3 *
      toMatrix m 3 3 = 1 := by
  have hsq := hsq_of_wf hwf (by omega)
  have hd3 : d = entry m 0 0 * (entry m 1 1 * entry m 2 2 - entry m 1 2 * entry m 2 1) -
      entry m 0 1 * (entry m 1 0 * entry m 2 2 - entry m 1 2 * entry m 2 0) +
      entry m 0 2 * (entry m 1 0 * entry m 2 1 - entry m 1 1 * entry m 2 0) := by
    have h := determinant_three hsq hwf.1
    rw [hdet] at h
    injection h
  have hlit := inverse_three_left_lit (entry m 0 0) (entry m 0 1) (entry m 0 2)
    (entry m 1 0) (entry m 1 1) (entry m 1 2) (entry m 2 0) (entry m 2 1) (entry m 2 2)
    d hd3 hd0
  rw [show toMatrix m 3 3 = toMatrix
      [[entry m 0 0, entry m 0 1, entry m 0 2],
       [entry m 1 0, entry m 1 1, entry m 1 2],
       [entry m 2 0, entry m 2 1, entry m 2 2]] 3 3 from by rw [← eq_literal_three hwf]]
  exact hlit

/-- Whenever `inverse` succeeds on a well-formed square matrix, its output
multiplies with the input, on both sides, to the source identity matrix. -/
theorem inverse_mul_spec {m B : Mat α} {n : Nat} (hwf : wellFormed m n n) (hn : 0 < n)
    (hinv : inverse m = .ok B) :
    multiply m B = .ok (identity n) ∧ multiply B m = .ok (identity n) := by
  obtain ⟨k, rfl⟩ : ∃ k, n = k + 1 := ⟨n - 1, by omega⟩
  have hsq := hsq_of_wf hwf hn
  have hdet := determinant_spec hwf
  set d := (toMatrix m (k + 1) (k + 1)).det with hd
  by_cases hdtol : |d| < singularTol
  · rw [inverse_singular hsq hdet hdtol] at hinv
    exact Except.noConfusion hinv
  · have hd0 : d ≠ 0 := by
      intro h0
      rw [h0] at hdtol
      exact hdtol (by rw [abs_zero, singularTol]; positivity)
    have hlen : m.length = k + 1 := hwf.1
    by_cases h2 : m.length = 2
    · obtain rfl : k = 1 := by omega
      rw [inverse_two hsq hdet hdtol h2] at hinv
      injection hinv with hB
      have hwfB : wellFormed [[entry m 1 1 / d, -entry m 0 1 / d],
          [-entry m 1 0 / d, entry m 0 0 / d]] 2 2 := by
        refine ⟨rfl, ?_⟩
        intro row hrow
        simp only [List.mem_cons, List.not_mem_nil, or_false] at hrow
        rcases hrow with rfl | rfl <;> rfl
      exact products_of_left_inverse hwf (hB ▸ hwfB) hn
        (hB ▸ inverse_two_left hwf hdet hd0)
    · by_cases h3 : m.length = 3
      · obtain rfl : k = 2 := by omega
        rw [inverse_three hsq hdet hdtol h3] at hinv
        injection hinv with hB
        have hwfB : wellFormed
            [[(entry m 1 1 * entry m 2 2 - entry m 1 2 * entry m 2 1) / d,
              (entry m 0 2 * entry m 2 1 - entry m 0 1 * entry m 2 2) / d,
              (entry m 0 1 * entry m 1 2 - entry m 0 2 * entry m 1 1) / d],
             [(entry m 1 2 * entry m 2 0 - entry m 1 0 * entry m 2 2) / d,
              (entry m 0 0 * entry m 2 2 - entry m 0 2 * entry m 2 0) / d,
              (entry m 0 2 * entry m 1 0 - entry m 0 0 * entry m 1 2) / d],
             [(entry m 1 0 * entry m 2 1 - entry m 1 1 * entry m 2 0) / d,
              (entry m 0 1 * entry m 2 0 - entry m 0 0 * entry m 2 1) / d,
              (entry m 0 0 * entry m 1 1 - entry m 0 1 * entry m 1 0) / d]] 3 3 := by
          refine ⟨rfl, ?_⟩
          intro row hrow
          simp only [List.mem_cons, List.not_mem_nil, or_false] at hrow
          rcases hrow with rfl | rfl | rfl <;> rfl
        exact products_of_left_inverse hwf (hB ▸ hwfB) hn
          (hB ▸ inverse_three_left hwf hdet hd0)
      · rw [inverse_gauss hsq hdet hdtol h2 h3] at hinv
        cases hloop : gjLoop m.length (gjAugment m m.length) with
        | error e =>
          rw [hloop] at hinv
          exact Except.noConfusion hinv
        | ok aug' =>
          rw [hloop] at hinv
          rw [show (Except.ok aug' : Except MatError (Mat α)).map
            (fun aug => aug.map fun row => row.drop m.length) =
            Except.ok (aug'.map fun row => row.drop m.length) from rfl] at hinv
          injection hinv with hB
          rw [hlen] at hloop hB
          obtain ⟨hwfB, hleft⟩ := gjLoop_spec hwf hloop
          exact products_of_left_inverse hwf (hB ▸ hwfB) hn (hB ▸ hleft)

/-- On a well-formed square matrix, the only error `inverse` can raise is
`Singular`. -/
theorem inverse_error_classify {m : Mat α} {n : Nat} (hwf : wellFormed m n n)
    (hn : 0 < n) {e : MatError} (h : inverse m = .error e) : e = .singular := by
  obtain ⟨k, rfl⟩ : ∃ k, n = k + 1 := ⟨n - 1, by omega⟩
  have hsq := hsq_of_wf hwf hn
  have hdet := determinant_spec hwf
  set d := (toMatrix m (k + 1) (k + 1)).det with hd
  by_cases hdtol : |d| < singularTol
  · rw [inverse_singular hsq hdet hdtol] at h
    injection h with h
    exact h.symm
  · by_cases h2 : m.length = 2
    · rw [inverse_two hsq hdet hdtol h2] at h
      exact Except.noConfusion h
    · by_cases h3 : m.length = 3
      · rw [inverse_three hsq hdet hdtol h3] at h
        exact Except.noConfusion h
      · rw [inverse_gauss hsq hdet hdtol h2 h3] at h
        cases hloop : gjLoop m.length (gjAugment m m.length) with
        | error e' =>
          rw [hloop] at h
          have he : e' = e := by injection h
          rw [← he]
          exact gjLoop_error_singular hloop
        | ok aug' =>
          rw [hloop] at h
          exact Except.noConfusion h

/-- The `Singular` failure condition of `inverse`, exactly: the determinant
tolerance check, or — in the elimination branch (sizes other than 2 and 3) —
a pivot-tolerance failure. -/
theorem inverse_singular_iff {m : Mat α} {n : Nat} {d : α} (hwf : wellFormed m n n)
    (hn : 0 < n) (hdet : determinant m = .ok d) :
    inverse m = .error .singular ↔
      |d| < singularTol ∨ (n ≠ 2 ∧ n ≠ 3 ∧ gjFails m = true) := by
  have hsq := hsq_of_wf hwf hn
  have hlen : m.length = n := hwf.1
  constructor
  · intro h
    by_cases hdtol : |d| < singularTol
    · exact Or.inl hdtol
    · by_cases h2 : m.length = 2
      · rw [inverse_two hsq hdet hdtol h2] at h
        exact Except.noConfusion h
      · by_cases h3 : m.length = 3
        · rw [inverse_three hsq hdet hdtol h3] at h
          exact Except.noConfusion h
        · refine Or.inr ⟨by omega, by omega, ?_⟩
          rw [inverse_gauss hsq hdet hdtol h2 h3] at h
          unfold gjFails
          cases hloop : gjLoop m.length (gjAugment m m.length) with
          | error e' => rfl
          | ok aug' =>
            rw [hloop] at h
            exact Except.noConfusion h
  · intro h
    rcases h with hdtol | ⟨h2, h3, hfail⟩
    · exact inverse_singular hsq hdet hdtol
    · by_cases hdtol : |d| < singularTol
      · exact inverse_singular hsq hdet hdtol
      · rw [inverse_gauss hsq hdet hdtol (by omega) (by omega)]
        unfold gjFails at hfail
        cases hloop : gjLoop m.length (gjAugment m m.length) with
        | error e' =>
          rw [gjLoop_error_singular hloop]
          exact rfl
        | ok aug' =>
          rw [hloop] at hfail
          exact Bool.noConfusion hfail

/-- When neither singularity condition fires, `inverse` succeeds. -/
theorem inverse_ok_of {m : Mat α} {n : Nat} {d : α} (hwf : wellFormed m n n)
    (hn : 0 < n) (hdet : determinant m = .ok d)
    (h : ¬(|d| < singularTol ∨ (n ≠ 2 ∧ n ≠ 3 ∧ gjFails m = true))) :
    ∃ B, inverse m = .ok B := by
  have hdtol : ¬|d| < singularTol := fun hc => h (Or.inl hc)
  have hsq := hsq_of_wf hwf hn
  have hlen : m.length = n := hwf.1
  by_cases h2 : m.length = 2
  · exact ⟨_, inverse_two hsq hdet hdtol h2⟩
  · by_cases h3 : m.length = 3
    · exact ⟨_, inverse_three hsq hdet hdtol h3⟩
    · have hfail : ¬gjFails m = true := fun hc =>
        h (Or.inr ⟨by omega, by omega, hc⟩)
      unfold gjFails at hfail
      cases hloop : gjLoop m.length (gjAugment m m.length) with
      | error e' =>
        rw [hloop] at hfail
        exact absurd rfl hfail
      | ok aug' =>
        refine ⟨aug'.map fun row => row.drop m.length, ?_⟩
        rw [inverse_gauss hsq hdet hdtol h2 h3, hloop]
        rfl

/-- Entries of a successful 3×3 product, as an explicit three-term sum. -/
theorem entry_mul3 {a b P : Mat α} (ha : wellFormed a 3 3) (hb : wellFormed b 3 3)
    (hP : multiply a b = .ok P) (i j : Nat) (hi : i < 3) (hj : j < 3) :
    entry P i j = entry a i 0 * entry b 0 j + entry a i 1 * entry b 1 j +
      entry a i 2 * entry b 2 j := by
  obtain ⟨hok, hwf, hmat⟩ := multiply_spec ha hb (by omega) (by omega)
  rw [hok] at hP
  injection hP with hP
  rw [← hP, entry_mkMat _ hi hj]
  show ((List.range 3).map fun k => entry a i k * entry b k j).sum = _
  rw [show List.range 3 = [0, 1, 2] from rfl]
  simp only [List.map_cons, List.map_nil, List.sum_cons, List.sum_nil]
  ring

/-- Entries of a successful 4×4 product, as an explicit four-term sum. -/
theorem entry_mul4 {a b P : Mat α} (ha : wellFormed a 4 4) (hb : wellFormed b 4 4)
    (hP : multiply a b = .ok P) (i j : Nat) (hi : i < 4) (hj : j < 4) :
    entry P i j = entry a i 0 * entry b 0 j + entry a i 1 * entry b 1 j +
      entry a i 2 * entry b 2 j + entry a i 3 * entry b 3 j := by
  obtain ⟨hok, hwf, hmat⟩ := multiply_spec ha hb (by omega) (by omega)
  rw [hok] at hP
  injection hP with hP
  rw [← hP, entry_mkMat _ hi hj]
  show ((List.range 4).map fun k => entry a i k * entry b k j).sum = _
  rw [show List.range 4 = [0, 1, 2, 3] from rfl]
  simp only [List.map_cons, List.map_nil, List.sum_cons, List.sum_nil]
  ring

/-- A successful product of well-formed 3×3 operands (shape facts). -/
theorem multiply_ok_exists3 {a b : Mat α} (ha : wellFormed a 3 3)
    (hb : wellFormed b 3 3) :
    ∃ P, multiply a b = .ok P ∧ wellFormed P 3 3 := by
  obtain ⟨hok, hwf, hmat⟩ := multiply_spec ha hb (by omega) (by omega)
  exact ⟨_, hok, hwf⟩

/-- The determinant of any well-formed square matrix with an all-zero row
is `0` — at every size, covering the recursive cofactor branch. -/
theorem determinant_zero_row {m : Mat α} {n i : Nat} (hwf : wellFormed m n n)
    (hn : 0 < n) (hi : i < n) (hz : ∀ j, j < n → entry m i j = 0) :
    determinant m = .ok 0 := by
  obtain ⟨k, rfl⟩ : ∃ k, n = k + 1 := ⟨n - 1, by omega⟩
  rw [determinant_spec hwf]
  refine congrArg Except.ok ?_
  exact Matrix.det_eq_zero_of_row_eq_zero ⟨i, hi⟩ fun j => by
    rw [toMatrix_apply]
    exact hz j j.isLt

end MatrixLib

namespace VectorLib

variable {α : Type} [LinearOrderedField α]

/-- `equals` decided: same constructor and every matching component pair
within a strict `< epsilon` bound.  The `z` bound only applies to the 3D
case. -/
theorem equals_iff (a b : Vector α) (epsilon : α) :
    equals a b epsilon = true ↔
      isVector3 a = isVector3 b ∧ |x a - x b| < epsilon ∧ |y a - y b| < epsilon ∧
        (isVector3 a = true → |z a - z b| < epsilon) := by
  cases a <;> cases b <;> simp [equals, isVector3, x, y, z]

/-- The guard of `normalize` catches exactly the all-zero vectors. -/
theorem magnitude_eq_zero_iff (v : Vector ℝ) :
    magnitude v = 0 ↔ v = .v2 0 0 ∨ v = .v3 0 0 0 := by
  cases v with
  | v2 a b =>
    simp only [magnitude]
    constructor
    · intro h
      have hnn : (0 : ℝ) ≤ a * a + b * b :=
        add_nonneg (mul_self_nonneg a) (mul_self_nonneg b)
      have h0 : a * a + b * b = 0 := (Real.sqrt_eq_zero hnn).mp h
      have ha : a = 0 := by nlinarith [mul_self_nonneg a, mul_self_nonneg b]
      have hb : b = 0 := by nlinarith [mul_self_nonneg a, mul_self_nonneg b]
      rw [ha, hb]
      exact Or.inl rfl
    · rintro (h | h)
      · injection h with h1 h2
        rw [h1, h2]
        norm_num
      · exact Vector.noConfusion h
  | v3 a b c =>
    simp only [magnitude]
    constructor
    · intro h
      have hnn : (0 : ℝ) ≤ a * a + b * b + c * c :=
        add_nonneg (add_nonneg (mul_self_nonneg a) (mul_self_nonneg b))
          (mul_self_nonneg c)
      have h0 : a * a + b * b + c * c = 0 := (Real.sqrt_eq_zero hnn).mp h
      have ha : a = 0 := by
        nlinarith [mul_self_nonneg a, mul_self_nonneg b, mul_self_nonneg c]
      have hb : b = 0 := by
        nlinarith [mul_self_nonneg a, mul_self_nonneg b, mul_self_nonneg c]
      have hc : c = 0 := by
        nlinarith [mul_self_nonneg a, mul_self_nonneg b, mul_self_nonneg c]
      rw [ha, hb, hc]
      exact Or.inr rfl
    · rintro (h | h)
      · exact Vector.noConfusion h
      · injection h with h1 h2 h3
        rw [h1, h2, h3]
        norm_num

/-- The zero-magnitude branch of `normalize`, verbatim. -/
theorem normalize_of_mag_zero {v : Vector ℝ} (h : magnitude v = 0) :
    normalize v = if isVector3 v then .v3 0 0 0 else .v2 0 0 := by
  unfold normalize
  rw [if_pos h]

/-- The scaling branch of `normalize`, verbatim. -/
theorem normalize_of_mag_ne {v : Vector ℝ} (h : magnitude v ≠ 0) :
    normalize v = scale v (1 / magnitude v) := by
  unfold normalize
  rw [if_neg h]


end VectorLib

namespace TransformsLib

open MatrixLib

/-- `atan2` recovers the angle of a positively-scaled direction vector. -/
theorem atan2_spec {k x : ℝ} (hk : 0 < k) (hx : x ∈ Set.Ioc (-Real.pi) Real.pi) :
    atan2 (k * Real.sin x) (k * Real.cos x) = x := by
  unfold atan2
  rw [show (⟨k * Real.cos x, k * Real.sin x⟩ : ℂ) =
      (k : ℂ) * (Complex.cos x + Complex.sin x * Complex.I) from by
        refine Complex.ext ?_ ?_ <;>
          simp [Complex.mul_re, Complex.mul_im, Complex.cos_ofReal_re,
            Complex.sin_ofReal_re, Complex.cos_ofReal_im, Complex.sin_ofReal_im]]
  rw [Complex.arg_real_mul _ hk, Complex.arg_cos_add_sin_mul_I hx]

theorem atan2_sin_cos {x : ℝ} (hx : x ∈ Set.Ioc (-Real.pi) Real.pi) :
    atan2 (Real.sin x) (Real.cos x) = x := by
  have := atan2_spec one_pos hx
  rwa [one_mul, one_mul] at this

theorem wellFormed_rotationMatrixZ (theta : ℝ) :
    wellFormed (rotationMatrixZ theta) 3 3 := by
  refine ⟨rfl, ?_⟩
  intro row hrow
  simp only [rotationMatrixZ, List.mem_cons, List.not_mem_nil, or_false] at hrow
  rcases hrow with rfl | rfl | rfl <;> rfl

theorem wellFormed_rotationMatrixY (theta : ℝ) :
    wellFormed (rotationMatrixY theta) 3 3 := by
  refine ⟨rfl, ?_⟩
  intro row hrow
  simp only [rotationMatrixY, List.mem_cons, List.not_mem_nil, or_false] at hrow
  rcases hrow with rfl | rfl | rfl <;> rfl

theorem wellFormed_rotationMatrixX (theta : ℝ) :
    wellFormed (rotationMatrixX theta) 3 3 := by
  refine ⟨rfl, ?_⟩
  intro row hrow
  simp only [rotationMatrixX, List.mem_cons, List.not_mem_nil, or_false] at hrow
  rcases hrow with rfl | rfl | rfl <;> rfl

/-- `rotationMatrixFromEuler` succeeds, is 3×3, and the seven entries read
by `eulerFromRotationMatrix` carry the standard intrinsic-ZYX formulas. -/
theorem rotationMatrixFromEuler_entries (roll pitch yaw : ℝ) :
    ∃ R, rotationMatrixFromEuler roll pitch yaw = .ok R ∧ wellFormed R 3 3 ∧
      entry R 0 0 = Real.cos yaw * Real.cos pitch ∧
      entry R 1 0 = Real.sin yaw * Real.cos pitch ∧
      entry R 2 0 = -Real.sin pitch ∧
      entry R 2 1 = Real.cos pitch * Real.sin roll ∧
      entry R 2 2 = Real.cos pitch * Real.cos roll ∧
      entry R 1 1 = Real.sin yaw * Real.sin pitch * Real.sin roll +
        Real.cos yaw * Real.cos roll ∧
      entry R 1 2 = Real.sin yaw * Real.sin pitch * Real.cos roll -
        Real.cos yaw * Real.sin roll ∧
      entry R 0 1 = Real.cos yaw * Real.sin pitch * Real.sin roll -
        Real.sin yaw * Real.cos roll ∧
      entry R 0 2 = Real.cos yaw * Real.sin pitch * Real.cos roll +
        Real.sin yaw * Real.sin roll := by
  have hwfz := wellFormed_rotationMatrixZ yaw
  have hwfy := wellFormed_rotationMatrixY pitch
  have hwfx := wellFormed_rotationMatrixX roll
  obtain ⟨P1, hok1, hwf1⟩ := multiply_ok_exists3 hwfz hwfy
  obtain ⟨P2, hok2, hwf2⟩ := multiply_ok_exists3 hwf1 hwfx
  refine ⟨P2, ?_, hwf2, ?_, ?_, ?_, ?_, ?_, ?_, ?_, ?_, ?_⟩
  · unfold rotationMatrixFromEuler
    rw [hok1]
    exact hok2
  · rw [entry_mul3 hwf1 hwfx hok2 0 0 (by omega) (by omega),
      entry_mul3 hwfz hwfy hok1 0 0 (by omega) (by omega),
      entry_mul3 hwfz hwfy hok1 0 1 (by omega) (by omega),
      entry_mul3 hwfz hwfy hok1 0 2 (by omega) (by omega)]
    show (Real.cos yaw * Real.cos pitch + -Real.sin yaw * 0 + 0 * -Real.sin pitch) * 1 +
        (Real.cos yaw * 0 + -Real.sin yaw * 1 + 0 * 0) * 0 +
        (Real.cos yaw * Real.sin pitch + -Real.sin yaw * 0 + 0 * Real.cos pitch) * 0 =
      Real.cos yaw * Real.cos pitch
    ring
  · rw [entry_mul3 hwf1 hwfx hok2 1 0 (by omega) (by omega),
      entry_mul3 hwfz hwfy hok1 1 0 (by omega) (by omega),
      entry_mul3 hwfz hwfy hok1 1 1 (by omega) (by omega),
      entry_mul3 hwfz hwfy hok1 1 2 (by omega) (by omega)]
    show (Real.sin yaw * Real.cos pitch + Real.cos yaw * 0 + 0 * -Real.sin pitch) * 1 +
        (Real.sin yaw * 0 + Real.cos yaw * 1 + 0 * 0) * 0 +
        (Real.sin yaw * Real.sin pitch + Real.cos yaw * 0 + 0 * Real.cos pitch) * 0 =
      Real.sin yaw * Real.cos pitch
    ring
  · rw [entry_mul3 hwf1 hwfx hok2 2 0 (by omega) (by omega),
      entry_mul3 hwfz hwfy hok1 2 0 (by omega) (by omega),
      entry_mul3 hwfz hwfy hok1 2 1 (by omega) (by omega),
      entry_mul3 hwfz hwfy hok1 2 2 (by omega) (by omega)]
    show (0 * Real.cos pitch + 0 * 0 + 1 * -Real.sin pitch) * 1 +
        (0 * 0 + 0 * 1 + 1 * 0) * 0 +
        (0 * Real.sin pitch + 0 * 0 + 1 * Real.cos pitch) * 0 = -Real.sin pitch
    ring
  · rw [entry_mul3 hwf1 hwfx hok2 2 1 (by omega) (by omega),
      entry_mul3 hwfz hwfy hok1 2 0 (by omega) (by omega),
      entry_mul3 hwfz hwfy hok1 2 1 (by omega) (by omega),
      entry_mul3 hwfz hwfy hok1 2 2 (by omega) (by omega)]
    show (0 * Real.cos pitch + 0 * 0 + 1 * -Real.sin pitch) * 0 +
        (0 * 0 + 0 * 1 + 1 * 0) * Real.cos roll +
        (0 * Real.sin pitch + 0 * 0 + 1 * Real.cos pitch) * Real.sin roll =
      Real.cos pitch * Real.sin roll
    ring
  · rw [entry_mul3 hwf1 hwfx hok2 2 2 (by omega) (by omega),
      entry_mul3 hwfz hwfy hok1 2 0 (by omega) (by omega),
      entry_mul3 hwfz hwfy hok1 2 1 (by omega) (by omega),
      entry_mul3 hwfz hwfy hok1 2 2 (by omega) (by omega)]
    show (0 * Real.cos pitch + 0 * 0 + 1 * -Real.sin pitch) * 0 +
        (0 * 0 + 0 * 1 + 1 * 0) * -Real.sin roll +
        (0 * Real.sin pitch + 0 * 0 + 1 * Real.cos pitch) * Real.cos roll =
      Real.cos pitch * Real.cos roll
    ring
  · rw [entry_mul3 hwf1 hwfx hok2 1 1 (by omega) (by omega),
      entry_mul3 hwfz hwfy hok1 1 0 (by omega) (by omega),
      entry_mul3 hwfz hwfy hok1 1 1 (by omega) (by omega),
      entry_mul3 hwfz hwfy hok1 1 2 (by omega) (by omega)]
    show (Real.sin yaw * Real.cos pitch + Real.cos yaw * 0 + 0 * -Real.sin pitch) * 0 +
        (Real.sin yaw * 0 + Real.cos yaw * 1 + 0 * 0) * Real.cos roll +
        (Real.sin yaw * Real.sin pitch + Real.cos yaw * 0 + 0 * Real.cos pitch) *
          Real.sin roll =
      Real.sin yaw * Real.sin pitch * Real.sin roll + Real.cos yaw * Real.cos roll
    ring
  · rw [entry_mul3 hwf1 hwfx hok2 1 2 (by omega) (by omega),
      entry_mul3 hwfz hwfy hok1 1 0 (by omega) (by omega),
      entry_mul3 hwfz hwfy hok1 1 1 (by omega) (by omega),
      entry_mul3 hwfz hwfy hok1 1 2 (by omega) (by omega)]
    show (Real.sin yaw * Real.cos pitch + Real.cos yaw * 0 + 0 * -Real.sin pitch) * 0 +
        (Real.sin yaw * 0 + Real.cos yaw * 1 + 0 * 0) * -Real.sin roll +
        (Real.sin yaw * Real.sin pitch + Real.cos yaw * 0 + 0 * Real.cos pitch) *
          Real.cos roll =
      Real.sin yaw * Real.sin pitch * Real.cos roll - Real.cos yaw * Real.sin roll
    ring
  · rw [entry_mul3 hwf1 hwfx hok2 0 1 (by omega) (by omega),
      entry_mul3 hwfz hwfy hok1 0 0 (by omega) (by omega),
      entry_mul3 hwfz hwfy hok1 0 1 (by omega) (by omega),
      entry_mul3 hwfz hwfy hok1 0 2 (by omega) (by omega)]
    show (Real.cos yaw * Real.cos pitch + -Real.sin yaw * 0 + 0 * -Real.sin pitch) * 0 +
        (Real.cos yaw * 0 + -Real.sin yaw * 1 + 0 * 0) * Real.cos roll +
        (Real.cos yaw * Real.sin pitch + -Real.sin yaw * 0 + 0 * Real.cos pitch) *
          Real.sin roll =
      Real.cos yaw * Real.sin pitch * Real.sin roll - Real.sin yaw * Real.cos roll
    ring
  · rw [entry_mul3 hwf1 hwfx hok2 0 2 (by omega) (by omega),
      entry_mul3 hwfz hwfy hok1 0 0 (by omega) (by omega),
      entry_mul3 hwfz hwfy hok1 0 1 (by omega) (by omega),
      entry_mul3 hwfz hwfy hok1 0 2 (by omega) (by omega)]
    show (Real.cos yaw * Real.cos pitch + -Real.sin yaw * 0 + 0 * -Real.sin pitch) * 0 +
        (Real.cos yaw * 0 + -Real.sin yaw * 1 + 0 * 0) * -Real.sin roll +
        (Real.cos yaw * Real.sin pitch + -Real.sin yaw * 0 + 0 * Real.cos pitch) *
          Real.cos roll =
      Real.cos yaw * Real.sin pitch * Real.cos roll + Real.sin yaw * Real.sin roll
    ring

/-- On the non-degenerate domain — `roll`, `yaw` in `(-π, π]`, `pitch` in
`(-π/2, π/2)` and `cos pitch` at least the `1e-6` branch tolerance — the
decoder recovers the exact Euler triple from the encoder's matrix. -/
theorem euler_roundtrip {roll pitch yaw : ℝ}
    (hr : roll ∈ Set.Ioc (-Real.pi) Real.pi)
    (hy : yaw ∈ Set.Ioc (-Real.pi) Real.pi)
    (hp : pitch ∈ Set.Ioo (-(Real.pi / 2)) (Real.pi / 2))
    (hcp : 1 / 10 ^ 6 ≤ Real.cos pitch) :
    ∃ R, rotationMatrixFromEuler roll pitch yaw = .ok R ∧
      eulerFromRotationMatrix R = (roll, pitch, yaw) := by
  obtain ⟨R, hok, hwf, h00, h10, h20, h21, h22, h11, h12, h01, h02⟩ :=
    rotationMatrixFromEuler_entries roll pitch yaw
  refine ⟨R, hok, ?_⟩
  have hcp0 : (0 : ℝ) < Real.cos pitch := lt_of_lt_of_le (by norm_num) hcp
  have hsy : Real.sqrt (entry R 0 0 * entry R 0 0 + entry R 1 0 * entry R 1 0) =
      Real.cos pitch := by
    rw [h00, h10]
    have hq : Real.cos yaw * Real.cos pitch * (Real.cos yaw * Real.cos pitch) +
        Real.sin yaw * Real.cos pitch * (Real.sin yaw * Real.cos pitch) =
        Real.cos pitch ^ 2 := by
      have hpyth := Real.sin_sq_add_cos_sq yaw
      nlinarith [hpyth]
    rw [hq, Real.sqrt_sq hcp0.le]
  have e1 : atan2 (Real.cos pitch * Real.sin roll) (Real.cos pitch * Real.cos roll) =
      roll := atan2_spec hcp0 hr
  have e2 : atan2 (Real.sin pitch) (Real.cos pitch) = pitch := by
    refine atan2_sin_cos ⟨?_, ?_⟩
    · have hhalf : Real.pi / 2 < Real.pi := by linarith [Real.pi_pos]
      linarith [hp.1]
    · linarith [hp.2, Real.pi_pos]
  have e3 : atan2 (Real.cos pitch * Real.sin yaw) (Real.cos pitch * Real.cos yaw) =
      yaw := atan2_spec hcp0 hy
  simp only [eulerFromRotationMatrix]
  rw [hsy, if_neg (not_lt.mpr hcp)]
  rw [h21, h22, h20, neg_neg, h10, h00, e1, e2]
  rw [show Real.sin yaw * Real.cos pitch = Real.cos pitch * Real.sin yaw from
      mul_comm _ _,
    show Real.cos yaw * Real.cos pitch = Real.cos pitch * Real.cos yaw from
      mul_comm _ _, e3]

/-- With pitch exactly `π/2` the encoder's matrix has a zero first column
pair, so `sy = 0 < 1e-6`: the decoder takes the gimbal-lock branch and its
third returned angle (the yaw) is the literal `0`. -/
theorem gimbal_lock_spec (roll yaw : ℝ) :
    ∃ R, rotationMatrixFromEuler roll (Real.pi / 2) yaw = .ok R ∧
      Real.sqrt (entry R 0 0 * entry R 0 0 + entry R 1 0 * entry R 1 0) <
        1 / 10 ^ 6 ∧
      (eulerFromRotationMatrix R).2.2 = 0 := by
  obtain ⟨R, hok, hwf, h00, h10, h20, h21, h22, h11, h12, h01, h02⟩ :=
    rotationMatrixFromEuler_entries roll (Real.pi / 2) yaw
  have hz00 : entry R 0 0 = 0 := by rw [h00, Real.cos_pi_div_two, mul_zero]
  have hz10 : entry R 1 0 = 0 := by rw [h10, Real.cos_pi_div_two, mul_zero]
  have hsy : Real.sqrt (entry R 0 0 * entry R 0 0 + entry R 1 0 * entry R 1 0) =
      0 := by
    rw [hz00, hz10]
    norm_num
  refine ⟨R, hok, ?_, ?_⟩
  · rw [hsy]; norm_num
  · simp only [eulerFromRotationMatrix]
    rw [hsy, if_pos (by norm_num)]


theorem badPitch_cos : Real.cos badPitch = 1 / 10 ^ 7 :=
  Real.cos_arccos (by norm_num) (by norm_num)

theorem badPitch_mem : badPitch ∈ Set.Ioo (-(Real.pi / 2)) (Real.pi / 2) := by
  constructor
  · have h1 : 0 ≤ badPitch := Real.arccos_nonneg _
    have h2 : 0 < Real.pi / 2 := by linarith [Real.pi_pos]
    linarith
  · exact Real.arccos_lt_pi_div_two.mpr (by norm_num)

/-- At `(roll, pitch, yaw) = (0, badPitch, π)` — a triple inside the
claimed domain, with pitch strictly between `±π/2` — the decoder lands in
the gimbal branch and returns `0` for the yaw, an error of `π > 1e-5`. -/
theorem euler_roundtrip_fails :
    ∃ R, rotationMatrixFromEuler 0 badPitch Real.pi = .ok R ∧
      (eulerFromRotationMatrix R).2.2 = 0 ∧
      |Real.pi - (eulerFromRotationMatrix R).2.2| > 1 / 10 ^ 5 := by
  obtain ⟨R, hok, hwf, h00, h10, h20, h21, h22, h11, h12, h01, h02⟩ :=
    rotationMatrixFromEuler_entries 0 badPitch Real.pi
  have hz00 : entry R 0 0 = -(1 / 10 ^ 7) := by
    rw [h00, Real.cos_pi, badPitch_cos]; ring
  have hz10 : entry R 1 0 = 0 := by rw [h10, Real.sin_pi, zero_mul]
  have hsy : Real.sqrt (entry R 0 0 * entry R 0 0 + entry R 1 0 * entry R 1 0) =
      1 / 10 ^ 7 := by
    rw [hz00, hz10]
    rw [show -(1 / 10 ^ 7 : ℝ) * -(1 / 10 ^ 7) + 0 * 0 = (1 / 10 ^ 7 : ℝ) ^ 2 by ring]
    exact Real.sqrt_sq (by norm_num)
  have hyaw : (eulerFromRotationMatrix R).2.2 = 0 := by
    simp only [eulerFromRotationMatrix]
    rw [hsy, if_pos (by norm_num)]
  refine ⟨R, hok, hyaw, ?_⟩
  rw [hyaw, sub_zero, abs_of_pos Real.pi_pos]
  have := Real.pi_gt_three
  linarith

/-- An SE(2) transform with a unit-circle rotation block multiplies with its
`inverseTransform2D` to the source 3×3 identity. -/
theorem inverseTransform2D_spec {α : Type} [LinearOrderedField α] (c s tx ty : α)
    (h : c * c + s * s = 1) :
    multiply ([[c, -s, tx], [s, c, ty], [0, 0, 1]] : Mat α)
      (inverseTransform2D [[c, -s, tx], [s, c, ty], [0, 0, 1]]) =
      .ok (identity 3) := by
  have hwfT : wellFormed ([[c, -s, tx], [s, c, ty], [0, 0, 1]] : Mat α) 3 3 := by
    refine ⟨rfl, ?_⟩
    intro row hrow
    simp only [List.mem_cons, List.not_mem_nil, or_false] at hrow
    rcases hrow with rfl | rfl | rfl <;> rfl
  have hinv : inverseTransform2D ([[c, -s, tx], [s, c, ty], [0, 0, 1]] : Mat α) =
      [[c, s, -(c * tx + s * ty)], [-s, c, -(-s * tx + c * ty)], [0, 0, 1]] := rfl
  have hwfI : wellFormed ([[c, s, -(c * tx + s * ty)],
      [-s, c, -(-s * tx + c * ty)], [0, 0, 1]] : Mat α) 3 3 := by
    refine ⟨rfl, ?_⟩
    intro row hrow
    simp only [List.mem_cons, List.not_mem_nil, or_false] at hrow
    rcases hrow with rfl | rfl | rfl <;> rfl
  have hmat : toMatrix ([[c, s, -(c * tx + s * ty)],
      [-s, c, -(-s * tx + c * ty)], [0, 0, 1]] : Mat α) 3 3 *
      toMatrix ([[c, -s, tx], [s, c, ty], [0, 0, 1]] : Mat α) 3 3 = 1 := by
    ext i j
    rw [Matrix.mul_apply, Fin.sum_univ_three, Matrix.one_apply]
    fin_cases i <;> fin_cases j
    · show c * c + s * s + -(c * tx + s * ty) * 0 = 1
      linear_combination h
    · show c * -s + s * c + -(c * tx + s * ty) * 0 = 0
      ring
    · show c * tx + s * ty + -(c * tx + s * ty) * 1 = 0
      ring
    · show -s * c + c * s + -(-s * tx + c * ty) * 0 = 0
      ring
    · show -s * -s + c * c + -(-s * tx + c * ty) * 0 = 1
      linear_combination h
    · show -s * tx + c * ty + -(-s * tx + c * ty) * 1 = 0
      ring
    · show 0 * c + 0 * s + 1 * 0 = 0
      ring
    · show 0 * -s + 0 * c + 1 * 0 = 0
      ring
    · show 0 * tx + 0 * ty + 1 * 1 = 1
      ring
  rw [hinv]
  exact (products_of_left_inverse hwfT hwfI (by omega) hmat).1

/-- Literal-matrix core of the SE(3) inverse: with column-orthonormality of
the rotation block `[[a,b,c],[dd,e,f],[g,h,kk]]`, the rigid-inverse literal
is a left inverse of the transform literal. -/
theorem inverseTransform3D_left_lit {α : Type} [LinearOrderedField α]
    (a b c dd e f g h kk t1 t2 t3 : α)
    (h00 : a * a + dd * dd + g * g = 1) (h11 : b * b + e * e + h * h = 1)
    (h22 : c * c + f * f + kk * kk = 1) (h01 : a * b + dd * e + g * h = 0)
    (h02 : a * c + dd * f + g * kk = 0) (h12 : b * c + e * f + h * kk = 0) :
    toMatrix ([[a, dd, g, -(a * t1 + dd * t2 + g * t3)],
               [b, e, h, -(b * t1 + e * t2 + h * t3)],
               [c, f, kk, -(c * t1 + f * t2 + kk * t3)],
               [0, 0, 0, 1]] : Mat α) 4 4 *
      toMatrix ([[a, b, c, t1], [dd, e, f, t2], [g, h, kk, t3],
                 [0, 0, 0, 1]] : Mat α) 4 4 = 1 := by
  ext i j
  rw [Matrix.mul_apply, Fin.sum_univ_four, Matrix.one_apply]
  fin_cases i <;> fin_cases j
  · show a * a + dd * dd + g * g + -(a * t1 + dd * t2 + g * t3) * 0 = 1
    linear_combination h00
  · show a * b + dd * e + g * h + -(a * t1 + dd * t2 + g * t3) * 0 = 0
    linear_combination h01
  · show a * c + dd * f + g * kk + -(a * t1 + dd * t2 + g * t3) * 0 = 0
    linear_combination h02
  · show a * t1 + dd * t2 + g * t3 + -(a * t1 + dd * t2 + g * t3) * 1 = 0
    ring
  · show b * a + e * dd + h * g + -(b * t1 + e * t2 + h * t3) * 0 = 0
    linear_combination h01
  · show b * b + e * e + h * h + -(b * t1 + e * t2 + h * t3) * 0 = 1
    linear_combination h11
  · show b * c + e * f + h * kk + -(b * t1 + e * t2 + h * t3) * 0 = 0
    linear_combination h12
  · show b * t1 + e * t2 + h * t3 + -(b * t1 + e * t2 + h * t3) * 1 = 0
    ring
  · show c * a + f * dd + kk * g + -(c * t1 + f * t2 + kk * t3) * 0 = 0
    linear_combination h02
  · show c * b + f * e + kk * h + -(c * t1 + f * t2 + kk * t3) * 0 = 0
    linear_combination h12
  · show c * c + f * f + kk * kk + -(c * t1 + f * t2 + kk * t3) * 0 = 1
    linear_combination h22
  · show c * t1 + f * t2 + kk * t3 + -(c * t1 + f * t2 + kk * t3) * 1 = 0
    ring
  · show 0 * a + 0 * dd + 0 * g + 1 * 0 = 0
    ring
  · show 0 * b + 0 * e + 0 * h + 1 * 0 = 0
    ring
  · show 0 * c + 0 * f + 0 * kk + 1 * 0 = 0
    ring
  · show 0 * t1 + 0 * t2 + 0 * t3 + 1 * 1 = 1
    ring

/-- An SE(3) transform built by `homogeneousTransform3D` from an orthonormal
rotation block and any translation multiplies with its `inverseTransform3D`
to the source 4×4 identity. -/
theorem inverseTransform3D_spec {α : Type} [LinearOrderedField α] {R : Mat α}
    (hwfR : wellFormed R 3 3) (t1 t2 t3 : α)
    (hR : Matrix.transpose (toMatrix R 3 3) * toMatrix R 3 3 = 1) :
    multiply (homogeneousTransform3D R (t1, t2, t3))
      (inverseTransform3D (homogeneousTransform3D R (t1, t2, t3))) =
      .ok (identity 4) := by
  have hl0 := rowLength_of_wf hwfR (show 0 < 3 by omega)
  have hl1 := rowLength_of_wf hwfR (show 1 < 3 by omega)
  have hl2 := rowLength_of_wf hwfR (show 2 < 3 by omega)
  have he : ∀ i j : Nat, i < 3 → j < 3 →
      entry (homogeneousTransform3D R (t1, t2, t3)) i j = entry R i j := by
    intro i j hi hj
    interval_cases i
    · show (R.getD 0 [] ++ [t1]).getD j 0 = entry R 0 j
      rw [List.getD_append (R.getD 0 []) [t1] 0 j (by rw [hl0]; omega)]
      rfl
    · show (R.getD 1 [] ++ [t2]).getD j 0 = entry R 1 j
      rw [List.getD_append (R.getD 1 []) [t2] 0 j (by rw [hl1]; omega)]
      rfl
    · show (R.getD 2 [] ++ [t3]).getD j 0 = entry R 2 j
      rw [List.getD_append (R.getD 2 []) [t3] 0 j (by rw [hl2]; omega)]
      rfl
  have ht0 : entry (homogeneousTransform3D R (t1, t2, t3)) 0 3 = t1 := by
    show (R.getD 0 [] ++ [t1]).getD 3 0 = t1
    rw [List.getD_append_right (R.getD 0 []) [t1] 0 3 hl0.le, hl0]
    rfl
  have ht1 : entry (homogeneousTransform3D R (t1, t2, t3)) 1 3 = t2 := by
    show (R.getD 1 [] ++ [t2]).getD 3 0 = t2
    rw [List.getD_append_right (R.getD 1 []) [t2] 0 3 hl1.le, hl1]
    rfl
  have ht2 : entry (homogeneousTransform3D R (t1, t2, t3)) 2 3 = t3 := by
    show (R.getD 2 [] ++ [t3]).getD 3 0 = t3
    rw [List.getD_append_right (R.getD 2 []) [t3] 0 3 hl2.le, hl2]
    rfl
  have hwfT : wellFormed (homogeneousTransform3D R (t1, t2, t3)) 4 4 := by
    refine ⟨rfl, ?_⟩
    intro row hrow
    simp only [homogeneousTransform3D, List.mem_cons, List.not_mem_nil,
      or_false] at hrow
    rcases hrow with rfl | rfl | rfl | rfl
    · rw [List.length_append, hl0]
      rfl
    · rw [List.length_append, hl1]
      rfl
    · rw [List.length_append, hl2]
      rfl
    · rfl
  have hinv : inverseTransform3D (homogeneousTransform3D R (t1, t2, t3)) =
      [[entry R 0 0, entry R 1 0, entry R 2 0,
        -(entry R 0 0 * t1 + entry R 1 0 * t2 + entry R 2 0 * t3)],
       [entry R 0 1, entry R 1 1, entry R 2 1,
        -(entry R 0 1 * t1 + entry R 1 1 * t2 + entry R 2 1 * t3)],
       [entry R 0 2, entry R 1 2, entry R 2 2,
        -(entry R 0 2 * t1 + entry R 1 2 * t2 + entry R 2 2 * t3)],
       [0, 0, 0, 1]] := by
    rw [show inverseTransform3D (homogeneousTransform3D R (t1, t2, t3)) =
      [[entry (homogeneousTransform3D R (t1, t2, t3)) 0 0,
        entry (homogeneousTransform3D R (t1, t2, t3)) 1 0,
        entry (homogeneousTransform3D R (t1, t2, t3)) 2 0,
        -(entry (homogeneousTransform3D R (t1, t2, t3)) 0 0 *
            entry (homogeneousTransform3D R (t1, t2, t3)) 0 3 +
          entry (homogeneousTransform3D R (t1, t2, t3)) 1 0 *
            entry (homogeneousTransform3D R (t1, t2, t3)) 1 3 +
          entry (homogeneousTransform3D R (t1, t2, t3)) 2 0 *
            entry (homogeneousTransform3D R (t1, t2, t3)) 2 3)],
       [entry (homogeneousTransform3D R (t1, t2, t3)) 0 1,
        entry (homogeneousTransform3D R (t1, t2, t3)) 1 1,
        entry (homogeneousTransform3D R (t1, t2, t3)) 2 1,
        -(entry (homogeneousTransform3D R (t1, t2, t3)) 0 1 *
            entry (homogeneousTransform3D R (t1, t2, t3)) 0 3 +
          entry (homogeneousTransform3D R (t1, t2, t3)) 1 1 *
            entry (homogeneousTransform3D R (t1, t2, t3)) 1 3 +
          entry (homogeneousTransform3D R (t1, t2, t3)) 2 1 *
            entry (homogeneousTransform3D R (t1, t2, t3)) 2 3)],
       [entry (homogeneousTransform3D R (t1, t2, t3)) 0 2,
        entry (homogeneousTransform3D R (t1, t2, t3)) 1 2,
        entry (homogeneousTransform3D R (t1, t2, t3)) 2 2,
        -(entry (homogeneousTransform3D R (t1, t2, t3)) 0 2 *
            entry (homogeneousTransform3D R (t1, t2, t3)) 0 3 +
          entry (homogeneousTransform3D R (t1, t2, t3)) 1 2 *
            entry (homogeneousTransform3D R (t1, t2, t3)) 1 3 +
          entry (homogeneousTransform3D R (t1, t2, t3)) 2 2 *
            entry (homogeneousTransform3D R (t1, t2, t3)) 2 3)],
       [0, 0, 0, 1]] from rfl]
    rw [he 0 0 (by omega) (by omega), he 1 0 (by omega) (by omega),
      he 2 0 (by omega) (by omega), he 0 1 (by omega) (by omega),
      he 1 1 (by omega) (by omega), he 2 1 (by omega) (by omega),
      he 0 2 (by omega) (by omega), he 1 2 (by omega) (by omega),
      he 2 2 (by omega) (by omega), ht0, ht1, ht2]
  have hwfI : wellFormed ([[entry R 0 0, entry R 1 0, entry R 2 0,
      -(entry R 0 0 * t1 + entry R 1 0 * t2 + entry R 2 0 * t3)],
      [entry R 0 1, entry R 1 1, entry R 2 1,
       -(entry R 0 1 * t1 + entry R 1 1 * t2 + entry R 2 1 * t3)],
      [entry R 0 2, entry R 1 2, entry R 2 2,
       -(entry R 0 2 * t1 + entry R 1 2 * t2 + entry R 2 2 * t3)],
      [0, 0, 0, 1]] : Mat α) 4 4 := by
    refine ⟨rfl, ?_⟩
    intro row hrow
    simp only [List.mem_cons, List.not_mem_nil, or_false] at hrow
    rcases hrow with rfl | rfl | rfl | rfl <;> rfl
  have hTmat : toMatrix (homogeneousTransform3D R (t1, t2, t3)) 4 4 =
      toMatrix ([[entry R 0 0, entry R 0 1, entry R 0 2, t1],
                 [entry R 1 0, entry R 1 1, entry R 1 2, t2],
                 [entry R 2 0, entry R 2 1, entry R 2 2, t3],
                 [0, 0, 0, 1]] : Mat α) 4 4 := by
    ext i j
    rw [toMatrix_apply, toMatrix_apply]
    fin_cases i <;> fin_cases j
    · exact he 0 0 (by omega) (by omega)
    · exact he 0 1 (by omega) (by omega)
    · exact he 0 2 (by omega) (by omega)
    · exact ht0
    · exact he 1 0 (by omega) (by omega)
    · exact he 1 1 (by omega) (by omega)
    · exact he 1 2 (by omega) (by omega)
    · exact ht1
    · exact he 2 0 (by omega) (by omega)
    · exact he 2 1 (by omega) (by omega)
    · exact he 2 2 (by omega) (by omega)
    · exact ht2
    · rfl
    · rfl
    · rfl
    · rfl
  have key : ∀ i j : Fin 3, entry R 0 (i : Nat) * entry R 0 (j : Nat) +
      entry R 1 (i : Nat) * entry R 1 (j : Nat) +
      entry R 2 (i : Nat) * entry R 2 (j : Nat) = if i = j then (1 : α) else 0 := by
    intro i j
    have hcol := congrFun (congrFun hR i) j
    rw [Matrix.mul_apply, Fin.sum_univ_three] at hcol
    simpa only [Matrix.transpose_apply, toMatrix_apply, Matrix.one_apply] using hcol
  have k00 : entry R 0 0 * entry R 0 0 + entry R 1 0 * entry R 1 0 +
      entry R 2 0 * entry R 2 0 = 1 := by simpa using key 0 0
  have k11 : entry R 0 1 * entry R 0 1 + entry R 1 1 * entry R 1 1 +
      entry R 2 1 * entry R 2 1 = 1 := by simpa using key 1 1
  have k22 : entry R 0 2 * entry R 0 2 + entry R 1 2 * entry R 1 2 +
      entry R 2 2 * entry R 2 2 = 1 := by simpa using key 2 2
  have k01 : entry R 0 0 * entry R 0 1 + entry R 1 0 * entry R 1 1 +
      entry R 2 0 * entry R 2 1 = 0 := by simpa using key 0 1
  have k02 : entry R 0 0 * entry R 0 2 + entry R 1 0 * entry R 1 2 +
      entry R 2 0 * entry R 2 2 = 0 := by simpa using key 0 2
  have k12 : entry R 0 1 * entry R 0 2 + entry R 1 1 * entry R 1 2 +
      entry R 2 1 * entry R 2 2 = 0 := by simpa using key 1 2
  have hmat := inverseTransform3D_left_lit (entry R 0 0) (entry R 0 1) (entry R 0 2)
    (entry R 1 0) (entry R 1 1) (entry R 1 2) (entry R 2 0) (entry R 2 1)
    (entry R 2 2) t1 t2 t3 k00 k11 k22 k01 k02 k12
  rw [← hTmat] at hmat
  rw [hinv]
  exact (products_of_left_inverse hwfT hwfI (by omega) hmat).1


end TransformsLib


/-! ## The claims -/

open MatrixLib VectorLib TransformsLib

/-- C1 (amended): whenever `inverse` succeeds on a well-formed square matrix
of positive size — which covers the closed-form 2×2/3×3 branches and the
Gauss–Jordan branch alike — its result multiplies with the input on both
sides to `identity(n)`, exactly.  (The original claim promised this for
every matrix with `|det| ≥ 1e-10`; the Gauss–Jordan branch can still reject
such a matrix on a pivot-tolerance check, see the counterexample.) -/
theorem C1_inverse_products {α : Type} [LinearOrderedField α] {m B : Mat α}
    {n : Nat} (hwf : wellFormed m n n) (hn : 0 < n) (hinv : inverse m = .ok B) :
    multiply m B = .ok (identity n) ∧ multiply B m = .ok (identity n) :=
  inverse_mul_spec hwf hn hinv

theorem C1_inverse_products_witness :
    multiply ([[1, 2], [3, 4]] : Mat ℚ) [[-2, 1], [3 / 2, -1 / 2]] =
      .ok (identity 2) ∧
    multiply ([[-2, 1], [3 / 2, -1 / 2]] : Mat ℚ) [[1, 2], [3, 4]] =
      .ok (identity 2) :=
  C1_inverse_products (by with_unfolding_all decide) (by omega)
    (by with_unfolding_all rfl)

/-- C1 counterexample to the original claim: `diag(1e-11, 10, 10, 10)` is
well formed, square, with determinant `1e-8` of magnitude at least the
`1e-10` tolerance (so "non-singular" in the claim's sense), yet `inverse`
fails with `Singular`: partial pivoting leaves the `1e-11` pivot in place
and the per-pivot `1e-10` check rejects it. -/
theorem C1_counterexample :
    wellFormed ([[1 / 10 ^ 11, 0, 0, 0], [0, 10, 0, 0], [0, 0, 10, 0],
      [0, 0, 0, 10]] : Mat ℚ) 4 4 ∧
    determinant ([[1 / 10 ^ 11, 0, 0, 0], [0, 10, 0, 0], [0, 0, 10, 0],
      [0, 0, 0, 10]] : Mat ℚ) = .ok (1 / 10 ^ 8) ∧
    ¬(|(1 / 10 ^ 8 : ℚ)| < singularTol) ∧
    inverse ([[1 / 10 ^ 11, 0, 0, 0], [0, 10, 0, 0], [0, 0, 10, 0],
      [0, 0, 0, 10]] : Mat ℚ) = .error .singular :=
  ⟨by with_unfolding_all decide, by with_unfolding_all rfl,
   by with_unfolding_all decide, by with_unfolding_all rfl⟩

/-- C2 (amended): the Euler round-trip recovers the exact `(roll, pitch,
yaw)` triple when `roll, yaw ∈ (-π, π]`, `pitch ∈ (-π/2, π/2)` **and**
`cos pitch` clears the decoder's `1e-6` gimbal-branch tolerance.  (The
original claim asked only that pitch stay away from `±π/2`; close enough to
`π/2` the decoder enters its gimbal branch and the yaw is lost, see the
counterexample.) -/
theorem C2_euler_roundtrip {roll pitch yaw : ℝ}
    (hr : roll ∈ Set.Ioc (-Real.pi) Real.pi)
    (hy : yaw ∈ Set.Ioc (-Real.pi) Real.pi)
    (hp : pitch ∈ Set.Ioo (-(Real.pi / 2)) (Real.pi / 2))
    (hcp : 1 / 10 ^ 6 ≤ Real.cos pitch) :
    ∃ R, rotationMatrixFromEuler roll pitch yaw = .ok R ∧
      eulerFromRotationMatrix R = (roll, pitch, yaw) :=
  euler_roundtrip hr hy hp hcp

theorem C2_euler_roundtrip_witness :
    ∃ R, rotationMatrixFromEuler 0 0 0 = .ok R ∧
      eulerFromRotationMatrix R = (0, 0, 0) :=
  C2_euler_roundtrip
    ⟨neg_lt_zero.mpr Real.pi_pos, Real.pi_pos.le⟩
    ⟨neg_lt_zero.mpr Real.pi_pos, Real.pi_pos.le⟩
    ⟨neg_lt_zero.mpr (half_pos Real.pi_pos), half_pos Real.pi_pos⟩
    (by rw [Real.cos_zero]; norm_num)

/-- C2 counterexample to the original claim: at `(roll, pitch, yaw) =
(0, arccos(1e-7), π)` — roll and yaw in `(-π, π]` and pitch strictly inside
`(-π/2, π/2)`, hence inside the claimed domain — the decoder's `sy` is
`1e-7 < 1e-6`, the gimbal branch fires, and the recovered yaw is `0`:
off by `π`, far beyond the claimed `1e-5`. -/
theorem C2_counterexample :
    (0 : ℝ) ∈ Set.Ioc (-Real.pi) Real.pi ∧
    Real.pi ∈ Set.Ioc (-Real.pi) Real.pi ∧
    badPitch ∈ Set.Ioo (-(Real.pi / 2)) (Real.pi / 2) ∧
    ∃ R, rotationMatrixFromEuler 0 badPitch Real.pi = .ok R ∧
      (eulerFromRotationMatrix R).2.2 = 0 ∧
      |Real.pi - (eulerFromRotationMatrix R).2.2| > 1 / 10 ^ 5 :=
  ⟨⟨neg_lt_zero.mpr Real.pi_pos, Real.pi_pos.le⟩,
   ⟨by linarith [Real.pi_pos], le_refl _⟩,
   badPitch_mem, euler_roundtrip_fails⟩

/-- C3: a homogeneous transform built from a valid rotation block and an
arbitrary translation multiplies with its rigid-formula inverse to the
identity, exactly: the 2D case for any unit-circle `(cos, sin)` pair, the
3D case for any orthonormal 3×3 block. -/
theorem C3_rigid_inverse {α : Type} [LinearOrderedField α] :
    (∀ c s tx ty : α, c * c + s * s = 1 →
      multiply [[c, -s, tx], [s, c, ty], [0, 0, 1]]
        (inverseTransform2D [[c, -s, tx], [s, c, ty], [0, 0, 1]]) =
        .ok (identity 3)) ∧
    (∀ (R : Mat α) (t1 t2 t3 : α), wellFormed R 3 3 →
      Matrix.transpose (toMatrix R 3 3) * toMatrix R 3 3 = 1 →
      multiply (homogeneousTransform3D R (t1, t2, t3))
        (inverseTransform3D (homogeneousTransform3D R (t1, t2, t3))) =
        .ok (identity 4)) :=
  ⟨fun c s tx ty h => inverseTransform2D_spec c s tx ty h,
   fun R t1 t2 t3 hwfR hR => inverseTransform3D_spec hwfR t1 t2 t3 hR⟩

theorem C3_rigid_inverse_witness :
    multiply ([[0, -1, 2], [1, 0, 3], [0, 0, 1]] : Mat ℚ)
      (inverseTransform2D [[0, -1, 2], [1, 0, 3], [0, 0, 1]]) =
      .ok (identity 3) ∧
    multiply (homogeneousTransform3D (identity 3 : Mat ℚ) (2, 3, 4))
      (inverseTransform3D (homogeneousTransform3D (identity 3 : Mat ℚ)
        (2, 3, 4))) = .ok (identity 4) :=
  ⟨C3_rigid_inverse.1 0 1 2 3 (by norm_num),
   C3_rigid_inverse.2 (identity 3) 2 3 4 (wellFormed_identity 3)
     (by rw [toMatrix_identity, Matrix.transpose_one, one_mul])⟩

/-- C4: `inverse` fails with `NotSquare` (naming the shape) exactly on
non-square input; on a well-formed square matrix every failure is
`Singular`, and that happens precisely when `|det| < 1e-10` or — in the
elimination branch, sizes other than 2 and 3 — some pivot fails the same
`1e-10` check; otherwise a result is returned. -/
theorem C4_inverse_errors {α : Type} [LinearOrderedField α] :
    (∀ m : Mat α, m.length ≠ (m.headD []).length →
      inverse m = .error (.notSquare (m.length, (m.headD []).length))) ∧
    (∀ (m : Mat α) (n : Nat), wellFormed m n n → 0 < n →
      ∀ e, inverse m = .error e → e = .singular) ∧
    (∀ (m : Mat α) (n : Nat) (d : α), wellFormed m n n → 0 < n →
      determinant m = .ok d →
      (inverse m = .error .singular ↔
        |d| < singularTol ∨ (n ≠ 2 ∧ n ≠ 3 ∧ gjFails m = true)) ∧
      (¬(|d| < singularTol ∨ (n ≠ 2 ∧ n ≠ 3 ∧ gjFails m = true)) →
        ∃ B, inverse m = .ok B)) :=
  ⟨fun m h => inverse_notSquare h,
   fun m n hwf hn e he => inverse_error_classify hwf hn he,
   fun m n d hwf hn hdet =>
     ⟨inverse_singular_iff hwf hn hdet, fun h => inverse_ok_of hwf hn hdet h⟩⟩

theorem C4_inverse_errors_witness :
    inverse ([[1, 2], [3, 4], [5, 6]] : Mat ℚ) = .error (.notSquare (3, 2)) ∧
    inverse ([[0, 0], [0, 0]] : Mat ℚ) = .error .singular ∧
    ∃ B, inverse ([[1, 2], [3, 4]] : Mat ℚ) = .ok B :=
  ⟨C4_inverse_errors.1 [[1, 2], [3, 4], [5, 6]] (by decide),
   ((C4_inverse_errors.2.2 [[0, 0], [0, 0]] 2 0 (by decide) (by omega)
       (by with_unfolding_all rfl)).1).mpr
     (Or.inl (by with_unfolding_all decide)),
   (C4_inverse_errors.2.2 [[1, 2], [3, 4]] 2 (-2) (by decide) (by omega)
       (by with_unfolding_all rfl)).2
     (by with_unfolding_all decide)⟩

/-- C5: `multiply` fails with `DimensionMismatch`, naming both operand
shapes, exactly when the left operand's column count differs from the right
operand's row count; on compatible well-formed operands it succeeds with
the standard product `P[i][j] = Σ_k a[i][k] * b[k][j]`. -/
theorem C5_multiply_spec {α : Type} [LinearOrderedField α] :
    (∀ a b : Mat α, (dimensions a).2 ≠ (dimensions b).1 →
      multiply a b = .error (.dimensionMismatch (dimensions a) (dimensions b))) ∧
    (∀ a b : Mat α, (dimensions a).2 = (dimensions b).1 →
      ∃ P, multiply a b = .ok P) ∧
    (∀ (a b : Mat α) (r c d : Nat), wellFormed a r c → wellFormed b c d →
      0 < r → 0 < c →
      ∃ P, multiply a b = .ok P ∧ wellFormed P r d ∧
        ∀ i j, i < r → j < d →
          entry P i j = ∑ k ∈ Finset.range c, entry a i k * entry b k j) := by
  refine ⟨fun a b h => multiply_mismatch h, fun a b h => ⟨_, multiply_ok h⟩,
    fun a b r c d ha hb hr hc => ?_⟩
  obtain ⟨hok, hwfP, hmat⟩ := multiply_spec ha hb hr hc
  refine ⟨_, hok, hwfP, fun i j hi hj => ?_⟩
  rw [entry_mkMat _ hi hj, sum_map_range]

theorem C5_multiply_spec_witness :
    multiply ([[1, 2]] : Mat ℚ) [[1, 2]] =
      .error (.dimensionMismatch (1, 2) (1, 2)) ∧
    (∃ P, multiply ([[1, 2], [3, 4]] : Mat ℚ) [[5, 6], [7, 8]] = .ok P ∧
      wellFormed P 2 2 ∧
      ∀ i j, i < 2 → j < 2 →
        entry P i j = ∑ k ∈ Finset.range 2,
          entry ([[1, 2], [3, 4]] : Mat ℚ) i k * entry [[5, 6], [7, 8]] k j) :=
  ⟨C5_multiply_spec.1 [[1, 2]] [[1, 2]] (by decide),
   C5_multiply_spec.2.2 [[1, 2], [3, 4]] [[5, 6], [7, 8]] 2 2 2
     (by decide) (by decide) (by omega) (by omega)⟩

/-- C6: the determinant of every well-formed square matrix with an all-zero
row is `0`, at every positive size (the recursive cofactor branch
included); and the two quoted edge cases hold: `det [[5]] = 5` and
`det [[1,2],[2,4]] = 0`. -/
theorem C6_determinant_cases {α : Type} [LinearOrderedField α] :
    (∀ (m : Mat α) (n i : Nat), wellFormed m n n → 0 < n → i < n →
      (∀ j, j < n → entry m i j = 0) → determinant m = .ok 0) ∧
    determinant ([[5]] : Mat α) = .ok 5 ∧
    determinant ([[1, 2], [2, 4]] : Mat α) = .ok 0 :=
  ⟨fun m n i hwf hn hi hz => determinant_zero_row hwf hn hi hz, rfl, by
    rw [show determinant ([[1, 2], [2, 4]] : Mat α) =
      .ok ((1 : α) * 4 - 2 * 2) from rfl]
    norm_num⟩

theorem C6_determinant_cases_witness :
    determinant ([[0, 0, 0, 0], [1, 2, 3, 4], [5, 6, 7, 8], [9, 8, 7, 6]] : Mat ℚ)
      = .ok 0 :=
  C6_determinant_cases.1 [[0, 0, 0, 0], [1, 2, 3, 4], [5, 6, 7, 8], [9, 8, 7, 6]]
    4 0 (by decide) (by omega) (by omega) (by decide)

/-- C7: for every roll and yaw, the matrix encoded with pitch exactly `π/2`
drives the decoder's `sy` below the `1e-6` tolerance — the gimbal-lock
branch — and the decoder returns exactly `0` as the third (yaw) angle. -/
theorem C7_gimbal_lock (roll yaw : ℝ) :
    ∃ R, rotationMatrixFromEuler roll (Real.pi / 2) yaw = .ok R ∧
      Real.sqrt (entry R 0 0 * entry R 0 0 + entry R 1 0 * entry R 1 0) <
        1 / 10 ^ 6 ∧
      (eulerFromRotationMatrix R).2.2 = 0 :=
  gimbal_lock_spec roll yaw

/-- C8 (amended): `equals(a, b, ε)` is `true` iff the two vectors have the
same dimension and every matching component pair differs by **strictly less
than** `ε` — not "at most `ε`" as the original claim stated; the source
uses `<`, and the counterexample exhibits a pair at distance exactly `ε`
that compares unequal. -/
theorem C8_equals_strict {α : Type} [LinearOrderedField α]
    (a b : Vector α) (epsilon : α) :
    equals a b epsilon = true ↔
      isVector3 a = isVector3 b ∧ |x a - x b| < epsilon ∧
        |y a - y b| < epsilon ∧
        (isVector3 a = true → |z a - z b| < epsilon) :=
  equals_iff a b epsilon

theorem C8_equals_strict_witness :
    equals (Vector.v2 (0 : ℚ) 0) (Vector.v2 0 0) 1 = true :=
  (C8_equals_strict (Vector.v2 (0 : ℚ) 0) (Vector.v2 0 0) 1).mpr
    (by with_unfolding_all decide)

/-- C8 counterexample to the original "at most epsilon" reading: two 2D
vectors whose components differ by exactly `ε = 1e-10` (so `|diff| ≤ ε`
holds componentwise and the dimensions match), yet `equals` returns
`false`. -/
theorem C8_counterexample :
    isVector3 (Vector.v2 (0 : ℚ) 0) = isVector3 (Vector.v2 (1 / 10 ^ 10 : ℚ) 0) ∧
    |x (Vector.v2 (0 : ℚ) 0) - x (Vector.v2 (1 / 10 ^ 10 : ℚ) 0)| ≤ 1 / 10 ^ 10 ∧
    |y (Vector.v2 (0 : ℚ) 0) - y (Vector.v2 (1 / 10 ^ 10 : ℚ) 0)| ≤ 1 / 10 ^ 10 ∧
    equals (Vector.v2 (0 : ℚ) 0) (Vector.v2 (1 / 10 ^ 10 : ℚ) 0) (1 / 10 ^ 10) =
      false := by
  with_unfolding_all decide

/-- C9: `normalize` is total — its guard catches exactly the all-zero
vectors, returning the zero vector of matching dimension (no division by
zero), and on every other vector it returns `v` scaled by
`1 / magnitude(v)`. -/
theorem C9_normalize_safe (v : Vector ℝ) :
    (magnitude v = 0 ↔ v = .v2 0 0 ∨ v = .v3 0 0 0) ∧
    (magnitude v = 0 →
      normalize v = if isVector3 v then .v3 0 0 0 else .v2 0 0) ∧
    (magnitude v ≠ 0 → normalize v = scale v (1 / magnitude v)) :=
  ⟨magnitude_eq_zero_iff v, fun h => normalize_of_mag_zero h,
   fun h => normalize_of_mag_ne h⟩

theorem C9_normalize_safe_witness :
    normalize (Vector.v2 (0 : ℝ) 0) = Vector.v2 0 0 ∧
    normalize (Vector.v2 (3 : ℝ) 4) =
      scale (Vector.v2 (3 : ℝ) 4) (1 / magnitude (Vector.v2 (3 : ℝ) 4)) :=
  ⟨(C9_normalize_safe (Vector.v2 0 0)).2.1
     (by norm_num [magnitude, Real.sqrt_zero]),
   (C9_normalize_safe (Vector.v2 3 4)).2.2 (by norm_num [magnitude])⟩

/-- C10: on mixed 3D/2D operands, `add` and `subtract` signal no error and
return the 2D vector computed from the `x`/`y` components alone — the `z`
component of the 3D operand is silently discarded. -/
theorem C10_mixed_dimensions {α : Type} [LinearOrderedField α]
    (x1 y1 z1 x2 y2 : α) :
    add (.v3 x1 y1 z1) (.v2 x2 y2) = .v2 (x1 + x2) (y1 + y2) ∧
    add (.v2 x2 y2) (.v3 x1 y1 z1) = .v2 (x2 + x1) (y2 + y1) ∧
    subtract (.v3 x1 y1 z1) (.v2 x2 y2) = .v2 (x1 - x2) (y1 - y2) ∧
    subtract (.v2 x2 y2) (.v3 x1 y1 z1) = .v2 (x2 - x1) (y2 - y1) :=
  ⟨rfl, rfl, rfl, rfl⟩
